import Mathlib

/-! Balanced team generation (`frontend/src/utils/teamGen.js`).

A shallow embedding of `generateTeams` and `statsForTeams` together with the
properties established about them.

Modelling conventions.

* An attendee carries the three fields the algorithm reads: `id`, `gender`, `age`.
  `gender = none` stands for a missing gender (`undefined`), `age = none` for a missing
  age; `a.age || 0` is `ageOf`.  Ages are integers (the `age INTEGER` column of the backend).
* JavaScript arrays are lists; `push` appends at the end, `shift` removes the head,
  `pop` removes the last element.
* `Array.prototype.sort` is a stable sort; the stable sorted arrangement of a list is
  unique, and it is computed here by insertion sort.
* `generateTeams` is the function for a finite `teamCount` (a rational: every finite double
  is one) whose floor is an admissible array length; `generateTeamsCall` is the call for
  any number (`JSNumber`) and adds the outcomes in which the call raises an error: the
  `RangeError` of `Array.from` at line 39 and the `TypeError` of a push onto `teams[NaN]`.
* The object `{}` of the `genders` histogram inherits the properties of `Object.prototype`;
  reading such a key gives a value that is not a number (`inheritedText`).
* The two `while` loops whose termination is not syntactically evident (the loose merge and
  the size rebalance) take a fuel argument counting loop passes and answer `none` when it
  runs out.
-/

namespace TeamGen

/-- Attendee record (fields read by the team generator). -/
structure Attendee where
  id : String
  gender : Option String
  age : Option Int
deriving DecidableEq, Repr

/-- A team is an array of attendees. -/
abbrev Team := List Attendee

/-- The expression `(a.age || 0)`. -/
def ageOf (a : Attendee) : Int := a.age.getD 0

/-- The three normalised gender keys of `genders`. -/
inductive Bucket where
  | Male
  | Female
  | Other
deriving DecidableEq, Repr

/-- Key normalisation:
`a.gender === 'Female' ? 'Female' : a.gender === 'Male' ? 'Male' : 'Other'`. -/
def bucketOf (a : Attendee) : Bucket :=
  if a.gender = some "Female" then Bucket.Female
  else if a.gender = some "Male" then Bucket.Male
  else Bucket.Other

/-- Contents of `genders[g]` after the `forEach`: the attendees of bucket `g`, roster order. -/
def genderBucket (nonLeaders : List Attendee) (g : Bucket) : List Attendee :=
  nonLeaders.filter (fun a => decide (bucketOf a = g))

/-- Comparator order of `(x,y) => (x.age||0) - (y.age||0)`. -/
def ageLE (x y : Attendee) : Prop := ageOf x ≤ ageOf y

instance ageLE_decidable : DecidableRel ageLE := fun x y => Int.decLe (ageOf x) (ageOf y)

/-- Stable ascending sort by age: `.sort((x,y) => (x.age||0) - (y.age||0))`. -/
def sortByAge (l : List Attendee) : List Attendee := List.insertionSort ageLE l

/-- The `while (i <= j)` loop of `interleaveAges`.  `hi` is `j + 1` (so the start value
`j = arr.length - 1` of an empty array is `hi = 0`); the first argument bounds the number
of iterations, of which there are at most `arr.length`. -/
def interleaveLoop (arr : List Attendee) : Nat → Nat → Nat → List Attendee → List Attendee
  | 0, _, _, res => res
  | fuel + 1, i, hi, res =>
    if i < hi then
      if i + 1 = hi then
        interleaveLoop arr fuel (i + 1) (hi - 1) (res ++ (arr.get? i).toList)
      else
        interleaveLoop arr fuel (i + 1) (hi - 1)
          (res ++ (arr.get? i).toList ++ (arr.get? (hi - 1)).toList)
    else res

/-- Function `interleaveAges(arr)`. -/
def interleaveAges (arr : List Attendee) : List Attendee :=
  interleaveLoop arr arr.length 0 arr.length []

/-- The three working queues `orderedByGender['Male' | 'Female' | 'Other']`. -/
structure Queues where
  male : List Attendee
  female : List Attendee
  other : List Attendee
deriving DecidableEq, Repr

/-- Value of `orderedByGender[g]`: bucket `g`, sorted by age, interleaved. -/
def orderedBucket (nonLeaders : List Attendee) (g : Bucket) : List Attendee :=
  interleaveAges (sortByAge (genderBucket nonLeaders g))

/-- The object `orderedByGender` built from the roster. -/
def orderedByGender (nonLeaders : List Attendee) : Queues :=
  { male := orderedBucket nonLeaders Bucket.Male
    female := orderedBucket nonLeaders Bucket.Female
    other := orderedBucket nonLeaders Bucket.Other }

/-- Helper `quotasFor(count)` (closure over `N`). -/
def quotasFor (N count : Nat) : List Nat :=
  let base := count / N
  let extras := count % N
  (List.range extras).foldl (fun q i => q.set (i % N) (q.getD (i % N) 0 + 1))
    (List.replicate N base)

/-- The statement `teams[t].push(m)`. -/
def pushAt : List Team → Nat → Attendee → List Team
  | [], _, _ => []
  | tm :: rest, 0, m => (tm ++ [m]) :: rest
  | tm :: rest, t + 1, m => tm :: pushAt rest t m

/-- One inner loop of the quota fill, `k` iterations of
`const m = queue.shift(); if (m) teams[t].push(m);`.  Returns the queue that is left
and the updated teams. -/
def shiftInto : Nat → List Attendee → List Team → Nat → List Attendee × List Team
  | 0, queue, teams, _ => (queue, teams)
  | k + 1, [], teams, t => shiftInto k [] teams t
  | k + 1, m :: rest, teams, t => shiftInto k rest (pushAt teams t m) t

/-- Body of `for (let t = 0; t < N; t++)` in the strict branch: Male, Female, Other. -/
def strictFillTeam (maleQ femaleQ otherQ : List Nat) (st : Queues × List Team) (t : Nat) :
    Queues × List Team :=
  let r1 := shiftInto (maleQ.getD t 0) st.1.male st.2 t
  let r2 := shiftInto (femaleQ.getD t 0) st.1.female r1.2 t
  let r3 := shiftInto (otherQ.getD t 0) st.1.other r2.2 t
  ({ male := r1.1, female := r2.1, other := r3.1 }, r3.2)

/-- The quota fill of the strict branch (lines 68-86): queues and teams after the loop. -/
def strictFill (N : Nat) (qs : Queues) (teams : List Team) : Queues × List Team :=
  (List.range N).foldl
    (strictFillTeam (quotasFor N qs.male.length) (quotasFor N qs.female.length)
      (quotasFor N qs.other.length))
    (qs, teams)

/-- Round-robin pushes `teams[li % N].push(item)` for the items in order, `li` counting up
from `start`.  Used for the leftovers of the strict branch and, from `0`, for
`teams[i % N].push(merged[i])` of the loose branch. -/
def roundRobin (N : Nat) : List Attendee → Nat → List Team → List Team
  | [], _, teams => teams
  | item :: rest, li, teams => roundRobin N rest (li + 1) (pushAt teams (li % N) item)

/-- The strict branch (lines 57-95): quota fill, then leftovers round-robin. -/
def strictAssign (N : Nat) (qs : Queues) (teams : List Team) : List Team :=
  let filled := strictFill N qs teams
  roundRobin N (filled.1.male ++ filled.1.female ++ filled.1.other) 0 filled.2

/-- One visit of a gender list inside the merge loop:
`if (list.length) { item = list.shift(); merged.push(item); if (list.length) remaining = true }`.
Result: the list, `merged` and `remaining` afterwards. -/
def takeOne (list merged : List Attendee) (remaining : Bool) :
    List Attendee × List Attendee × Bool :=
  match list with
  | [] => ([], merged, remaining)
  | item :: rest => (rest, merged ++ [item], remaining || !rest.isEmpty)

/-- The loop `while (remaining)` of the loose branch; one unit of fuel per round. -/
def mergeLoop : Nat → Queues → List Attendee → Option (List Attendee)
  | 0, _, _ => none
  | fuel + 1, qs, merged =>
    let r1 := takeOne qs.male merged false
    let r2 := takeOne qs.female r1.2.1 r1.2.2
    let r3 := takeOne qs.other r2.2.1 r2.2.2
    if r3.2.2 then mergeLoop fuel { male := r1.1, female := r2.1, other := r3.1 } r3.2.1
    else some r3.2.1

/-- The loose branch (lines 97-116). -/
def looseAssign (fuel N : Nat) (qs : Queues) (teams : List Team) : Option (List Team) :=
  (mergeLoop fuel qs []).map (fun merged => roundRobin N merged 0 teams)

/-- The value `teams.reduce((s,tm) => s + tm.length, 0)`. -/
def totalSize (teams : List Team) : Nat := teams.foldl (fun s tm => s + tm.length) 0

/-- The array `target` of the rebalance (lines 126-130). -/
def targetSizes (N total : Nat) : List Nat :=
  let base := total / N
  let extras := total % N
  let target := (List.range N).map (fun _ => if extras > 0 then base + 1 else base)
  (List.range extras).foldl (fun tg i => tg.set i (base + 1)) target

/-- Result of `teams.findIndex((tm,idx) => tm.length < target[idx])`; `none` is `-1`. -/
def findUnderfull : List Team → List Nat → Option Nat
  | [], _ => none
  | _ :: _, [] => none
  | tm :: rest, tg :: tgs =>
    if tm.length < tg then some 0 else (findUnderfull rest tgs).map (fun j => j + 1)

/-- The statement `teams[i].pop()` as far as it changes `teams`. -/
def popAt : List Team → Nat → List Team
  | [], _ => []
  | tm :: rest, 0 => tm.dropLast :: rest
  | tm :: rest, i + 1 => tm :: popAt rest i

/-- Body of `for (let i = 0; i < N; i++)` inside the rebalance loop, on the pair
`(teams, changed)`. -/
def rebalanceStep (target : List Nat) (st : List Team × Bool) (i : Nat) : List Team × Bool :=
  if (st.1.getD i []).length > target.getD i 0 then
    match findUnderfull st.1 target with
    | some j =>
      match (st.1.getD i []).getLast? with
      | some m => (pushAt (popAt st.1 i) j m, true)
      | none => st
    | none => st
  else st

/-- One pass of the `for` loop, started with `changed = false`. -/
def rebalancePass (N : Nat) (target : List Nat) (teams : List Team) : List Team × Bool :=
  (List.range N).foldl (rebalanceStep target) (teams, false)

/-- The loop `while (changed)` of the rebalance; one unit of fuel per pass. -/
def rebalanceLoop (N : Nat) (target : List Nat) : Nat → List Team → Option (List Team)
  | 0, _ => none
  | fuel + 1, teams =>
    let r := rebalancePass N target teams
    if r.2 then rebalanceLoop N target fuel r.1 else some r.1

/-- The size rebalance (lines 124-147). -/
def rebalance (fuel N : Nat) (teams : List Team) : Option (List Team) :=
  rebalanceLoop N (targetSizes N (totalSize teams)) fuel teams

/-- The third argument of `generateTeams` as the caller passes it. -/
inductive OptsArg where
  /-- argument omitted (or `undefined`): the default `{ parity: 'strict' }` applies -/
  | omitted
  /-- a falsy value other than `undefined`, such as `null` -/
  | falsy
  /-- an object; `parity` is its `parity` field when that is a string, `none` otherwise -/
  | obj (parity : Option String)
deriving DecidableEq, Repr

/-- Default parameter `opts = { parity: 'strict' }`. -/
def resolveOpts : OptsArg → OptsArg
  | OptsArg.omitted => OptsArg.obj (some "strict")
  | o => o

/-- The test `opts && opts.parity === 'strict'`. -/
def isStrict (opts : OptsArg) : Bool :=
  match resolveOpts opts with
  | OptsArg.obj p => decide (p = some "strict")
  | _ => false

/-- The coercion `Math.max(0, Math.floor(teamCount))` of a finite `teamCount`. -/
def normalizeCount (teamCount : ℚ) : Nat := (max 0 (Rat.floor teamCount)).toNat

/-- The teams as assigned by either branch (lines 42-117), before sort and rebalance. -/
def assignTeams (fuel : Nat) (nonLeaders : List Attendee) (N : Nat) (opts : OptsArg) :
    Option (List Team) :=
  if isStrict opts then
    some (strictAssign N (orderedByGender nonLeaders) (List.replicate N []))
  else
    looseAssign fuel N (orderedByGender nonLeaders) (List.replicate N [])

/-- Function `generateTeams(nonLeaders, teamCount, opts)` for a finite `teamCount` whose
floor is an admissible array length (see `generateTeamsCall` for the other numbers).
`fuel` bounds the number of passes of each `while` loop; the answer is `none` when a loop
does not finish within it. -/
def generateTeams (fuel : Nat) (nonLeaders : List Attendee) (teamCount : ℚ) (opts : OptsArg) :
    Option (List Team) :=
  let N := normalizeCount teamCount
  if N = 0 then some (List.replicate N [])
  else
    (assignTeams fuel nonLeaders N opts).bind fun assigned =>
      rebalance fuel N (assigned.map sortByAge)

/-- A JavaScript number passed as `teamCount`: a finite value, `NaN`, `Infinity` or
`-Infinity`. -/
inductive JSNumber where
  | finite (q : ℚ)
  | nan
  | posInf
  | negInf

/-- How a call of `generateTeams` ends. -/
inductive Outcome where
  /-- the call returns `teams` -/
  | returned (teams : List Team)
  /-- `Array.from({length: N}, ...)` at line 39 raises `RangeError: Invalid array length` -/
  | rangeError
  /-- `teams[li % N].push(item)` (line 93) or `teams[t].push(merged[i])` (line 115) raises a
  `TypeError`, `teams[NaN]` being `undefined` -/
  | typeError
  /-- a loop of the model did not finish within the fuel -/
  | outOfFuel
deriving DecidableEq

/-- Largest length of an array, `2^32 - 1`: `Array.from({length: N})` raises a `RangeError`
for a larger `N`. -/
def maxArrayLength : Nat := 4294967295

/-- A call `generateTeams(nonLeaders, teamCount, opts)` with any number as `teamCount`.

* `-Infinity`: `Math.max(0, -Infinity)` is `0`, the guard of line 40 returns `[]`.
* `Infinity`, or a finite value with `floor(teamCount) > 2^32 - 1`: line 39 raises.
* `NaN`: `N` is `NaN`, `Array.from` gives `[]`, the guard `N === 0` fails, no loop over the
  teams runs (`t < NaN` is false), and the first push goes to `teams[NaN]`, which is
  `undefined`; with an empty roster nothing is pushed and `[]` is returned.
* otherwise the function of `generateTeams`. -/
def generateTeamsCall (fuel : Nat) (nonLeaders : List Attendee) (teamCount : JSNumber)
    (opts : OptsArg) : Outcome :=
  match teamCount with
  | JSNumber.negInf => Outcome.returned []
  | JSNumber.posInf => Outcome.rangeError
  | JSNumber.nan => if nonLeaders.isEmpty then Outcome.returned [] else Outcome.typeError
  | JSNumber.finite q =>
    if maxArrayLength < normalizeCount q then Outcome.rangeError
    else
      match generateTeams fuel nonLeaders q opts with
      | some teams => Outcome.returned teams
      | none => Outcome.outOfFuel

/-- A value stored in the `genders` histogram: a number, or a string. -/
inductive HistVal where
  | count (n : Nat)
  | text (s : String)
deriving DecidableEq, Repr

/-- The function-valued properties that the object `{}` inherits from `Object.prototype`. -/
def inheritedFunctions : List String :=
  ["constructor", "__defineGetter__", "__defineSetter__", "hasOwnProperty",
    "__lookupGetter__", "__lookupSetter__", "isPrototypeOf", "propertyIsEnumerable",
    "toString", "valueOf", "toLocaleString"]

/-- The value read under `key` from an object that has no own property `key`, converted to
a string as `+ 1` does: the source text of a native function (`constructor` is the function
`Object`, the other functions are named by their key), `[object Object]` for `__proto__`
(which reads `Object.prototype`), and `none` when nothing is inherited (`undefined`). -/
def inheritedText (key : String) : Option String :=
  if key = "__proto__" then some "[object Object]"
  else if key = "constructor" then some "function Object() \x7b [native code] \x7d"
  else if key ∈ inheritedFunctions then
    some ("function " ++ key ++ "() \x7b [native code] \x7d")
  else none

/-- The expression `(v || 0) + 1` for an own value `v`: a number is incremented, a
non-empty string gets `1` appended, the empty string is falsy and gives `1`. -/
def bumpVal : HistVal → HistVal
  | HistVal.count n => HistVal.count (n + 1)
  | HistVal.text s => if s = "" then HistVal.count 1 else HistVal.text (s ++ "1")

/-- Summary object `{ count, avgAge, genders }` of `statsForTeams`; `genders` lists the own
properties of the histogram object, key and value, in order of first occurrence (the
enumeration order of the keys of the object is not modelled). -/
structure TeamStats where
  count : Nat
  avgAge : ℚ
  genders : List (String × HistVal)
deriving DecidableEq, Repr

/-- Property key under which `acc[a.gender]` is stored: the string itself, and
`"undefined"` for a missing gender. -/
def genderKey (a : Attendee) : String := a.gender.getD "undefined"

/-- The reducer step `acc[a.gender] = (acc[a.gender] || 0) + 1` on the own properties of
`acc`.  An own property is read and overwritten.  Without one, the read goes to
`Object.prototype`: `undefined` gives the number `1`; an inherited value gives a string,
which becomes an own property, except under `__proto__`, where the assignment of a string
is ignored. -/
def bumpGender : List (String × HistVal) → String → List (String × HistVal)
  | [], key =>
    match inheritedText key with
    | none => [(key, HistVal.count 1)]
    | some s => if key = "__proto__" then [] else [(key, HistVal.text (s ++ "1"))]
  | (k, v) :: rest, key =>
    if k = key then (k, bumpVal v) :: rest else (k, v) :: bumpGender rest key

/-- The value `members.reduce((s,a) => s + (a.age||0), 0)`. -/
def ageSum (members : Team) : Int := members.foldl (fun s a => s + ageOf a) 0

/-- The value `n ? ageSum / n : 0`, as an exact rational. -/
def avgAgeOf (members : Team) : ℚ :=
  if members.length = 0 then 0 else (ageSum members : ℚ) / ((members.length : Nat) : ℚ)

/-- Function `statsForTeams(teams)`. -/
def statsForTeams (teams : List Team) : List TeamStats :=
  teams.map fun members =>
    { count := members.length
      avgAge := avgAgeOf members
      genders := members.foldl (fun acc a => bumpGender acc (genderKey a)) [] }

/-- The roster of `makeAttendees(nMale, nFemale, nOther)` in the test script
(`scripts/test-teamGen.mjs`); the shared `id` counter starts at 1. -/
def makeAttendees (nMale nFemale nOther : Nat) : List Attendee :=
  (List.range nMale).map (fun i =>
      { id := "m" ++ toString (1 + i), gender := some "Male", age := some (15 + (i : Int)) })
    ++ (List.range nFemale).map (fun i =>
      { id := "f" ++ toString (1 + nMale + i), gender := some "Female",
        age := some (14 + (i : Int)) })
    ++ (List.range nOther).map (fun i =>
      { id := "o" ++ toString (1 + nMale + nFemale + i), gender := some "Other",
        age := some (16 + (i : Int)) })

/-- Per-team number of members of bucket `g`. -/
def bucketCounts (g : Bucket) (teams : List Team) : List Nat :=
  teams.map fun tm => (tm.filter (fun a => decide (bucketOf a = g))).length

/-- Team `t` extended at its end by the members `ms`: the effect of pushing the members of
`ms` one after the other onto `teams[t]`. -/
def appendAt : List Team → Nat → List Attendee → List Team
  | [], _, _ => []
  | tm :: rest, 0, ms => (tm ++ ms) :: rest
  | tm :: rest, t + 1, ms => tm :: appendAt rest t ms

/-- Team sizes, `teams.map(t => t.length)`. -/
def sizes (teams : List Team) : List Nat := teams.map List.length

/-- Members above target, summed over the teams: the variant of the rebalance loop. -/
def excess : List Team → List Nat → Nat
  | [], _ => 0
  | _ :: _, [] => 0
  | tm :: rest, tg :: tgs => (tm.length - tg) + excess rest tgs

/-- Sum of the first `t` entries of a quota array: the number of queue entries consumed by
the teams before team `t`. -/
def quotaStart (q : List Nat) (t : Nat) : Nat := (q.take t).sum

/-- The entries of `queue` at positions `[quotaStart q t, quotaStart q t + q[t])`. -/
def quotaSlice (queue : List Attendee) (q : List Nat) (t : Nat) : List Attendee :=
  (queue.drop (quotaStart q t)).take (q.getD t 0)

/-- Number of members of `tm` in bucket `g`. -/
def bucketCount (g : Bucket) (tm : Team) : Nat :=
  (tm.filter (fun a => decide (bucketOf a = g))).length


/-- The own property `L` of a histogram object; `none` when there is none. -/
def histGet : List (String × HistVal) → String → Option HistVal
  | [], _ => none
  | (k, v) :: rest, key => if k = key then some v else histGet rest key

/-- A histogram of plain counts, as the description has it: the step that counts one more
member under `key`. -/
def bumpCount : List (String × Nat) → String → List (String × Nat)
  | [], key => [(key, 1)]
  | (k, c) :: rest, key => if k = key then (k, c + 1) :: rest else (k, c) :: bumpCount rest key

/-- The count under `L` in a histogram of plain counts; `none` when the key is absent. -/
def countGet : List (String × Nat) → String → Option Nat
  | [], _ => none
  | (k, c) :: rest, key => if k = key then some c else countGet rest key

/-- A histogram of plain counts as a histogram object. -/
def liftCounts (h : List (String × Nat)) : List (String × HistVal) :=
  h.map (fun p => (p.1, HistVal.count p.2))

/-- The `forEach` of lines 43-47 on the object `genders`: every attendee is pushed onto
the array of its normalised key. -/
def groupGenders (nonLeaders : List Attendee) : Queues :=
  nonLeaders.foldl
    (fun genders a =>
      match bucketOf a with
      | Bucket.Male => { genders with male := genders.male ++ [a] }
      | Bucket.Female => { genders with female := genders.female ++ [a] }
      | Bucket.Other => { genders with other := genders.other ++ [a] })
    { male := [], female := [], other := [] }

/-- The array `genders[g]` of `groupGenders`. -/
def Queues.bucket (qs : Queues) : Bucket → List Attendee
  | Bucket.Male => qs.male
  | Bucket.Female => qs.female
  | Bucket.Other => qs.other

/-- Number of members of a team whose gender, read as a property key, is `L`. -/
def labelCount (L : String) (members : Team) : Nat :=
  (members.filter (fun a => decide (genderKey a = L))).length


/-- The entries of `items` whose index, counted from `start`, is congruent to `t` modulo
`N`, in the order of `items`. -/
def pickMod (N t start : Nat) (items : List Attendee) : List Attendee :=
  ((items.enumFrom start).filter (fun p => decide (p.1 % N = t))).map Prod.snd

/-- Specification of the merged sequence round by round, in the words of the description:
round `r` contributes the `r`-th entry of the Male, Female and Other queues, in that order,
a queue with at most `r` entries contributing nothing; `k` is the number of rounds. -/
def mergedByRounds (qs : Queues) (k : Nat) : List Attendee :=
  ((List.range k).map (fun r =>
    (qs.male.get? r).toList ++ (qs.female.get? r).toList ++ (qs.other.get? r).toList)).flatten


/-! ## Elementary facts about pushing onto a team -/

theorem pushAt_eq_appendAt (teams : List Team) (t : Nat) (m : Attendee) :
    pushAt teams t m = appendAt teams t [m] := by
  induction teams generalizing t with
  | nil => rfl
  | cons tm rest ih =>
    cases t with
    | zero => rfl
    | succ t => simp [pushAt, appendAt, ih]

theorem appendAt_length (teams : List Team) (t : Nat) (ms : List Attendee) :
    (appendAt teams t ms).length = teams.length := by
  induction teams generalizing t with
  | nil => rfl
  | cons tm rest ih =>
    cases t with
    | zero => rfl
    | succ t => simp [appendAt, ih]

theorem appendAt_nil (teams : List Team) (t : Nat) : appendAt teams t [] = teams := by
  induction teams generalizing t with
  | nil => rfl
  | cons tm rest ih =>
    cases t with
    | zero => simp [appendAt]
    | succ t => simp [appendAt, ih]

theorem appendAt_appendAt (teams : List Team) (t : Nat) (a b : List Attendee) :
    appendAt (appendAt teams t a) t b = appendAt teams t (a ++ b) := by
  induction teams generalizing t with
  | nil => rfl
  | cons tm rest ih =>
    cases t with
    | zero => simp [appendAt]
    | succ t => simp [appendAt, ih]

theorem appendAt_flatten_perm (teams : List Team) (t : Nat) (ms : List Attendee)
    (ht : t < teams.length) : (appendAt teams t ms).flatten.Perm (teams.flatten ++ ms) := by
  induction teams generalizing t with
  | nil => simp at ht
  | cons tm rest ih =>
    cases t with
    | zero =>
      simp only [appendAt, List.flatten_cons, List.append_assoc]
      exact List.Perm.append_left tm List.perm_append_comm
    | succ t =>
      simp only [appendAt, List.flatten_cons, List.append_assoc]
      exact List.Perm.append_left tm (ih t (by simpa using ht))

theorem appendAt_getD_same (teams : List Team) (t : Nat) (ms : List Attendee)
    (ht : t < teams.length) : (appendAt teams t ms).getD t [] = teams.getD t [] ++ ms := by
  induction teams generalizing t with
  | nil => simp at ht
  | cons tm rest ih =>
    cases t with
    | zero => simp [appendAt]
    | succ t =>
      have := ih t (by simpa using ht)
      simpa [appendAt] using this

theorem appendAt_getD_other (teams : List Team) (t s : Nat) (ms : List Attendee)
    (hs : s ≠ t) : (appendAt teams t ms).getD s [] = teams.getD s [] := by
  induction teams generalizing t s with
  | nil => rfl
  | cons tm rest ih =>
    cases t with
    | zero =>
      cases s with
      | zero => exact absurd rfl hs
      | succ s => simp [appendAt]
    | succ t =>
      cases s with
      | zero => simp [appendAt]
      | succ s =>
        have := ih t s (by omega)
        simpa [appendAt] using this

theorem shiftInto_eq (k : Nat) (queue : List Attendee) (teams : List Team) (t : Nat) :
    shiftInto k queue teams t = (queue.drop k, appendAt teams t (queue.take k)) := by
  induction k generalizing queue teams with
  | zero => simp [shiftInto, appendAt_nil]
  | succ k ih =>
    cases queue with
    | nil =>
      rw [shiftInto, ih]
      simp
    | cons m rest =>
      rw [shiftInto, ih, pushAt_eq_appendAt, appendAt_appendAt]
      simp

theorem roundRobin_length (N : Nat) (items : List Attendee) (li : Nat) (teams : List Team) :
    (roundRobin N items li teams).length = teams.length := by
  induction items generalizing li teams with
  | nil => rfl
  | cons item rest ih => rw [roundRobin, ih, pushAt_eq_appendAt, appendAt_length]

theorem roundRobin_flatten_perm (N : Nat) (items : List Attendee) (li : Nat) (teams : List Team)
    (hN : 0 < N) (hlen : teams.length = N) :
    (roundRobin N items li teams).flatten.Perm (teams.flatten ++ items) := by
  induction items generalizing li teams with
  | nil => simp [roundRobin]
  | cons item rest ih =>
    rw [roundRobin]
    have h1 : (pushAt teams (li % N) item).length = N := by
      rw [pushAt_eq_appendAt, appendAt_length, hlen]
    have h2 : (pushAt teams (li % N) item).flatten.Perm (teams.flatten ++ [item]) := by
      rw [pushAt_eq_appendAt]
      exact appendAt_flatten_perm teams _ _ (by rw [hlen]; exact Nat.mod_lt _ hN)
    refine (ih (li + 1) _ h1).trans ?_
    have h3 := List.Perm.append_right rest h2
    simpa using h3

/-! ## `interleaveAges` rearranges its argument -/

theorem take_succ_drop (arr : List Attendee) (i k : Nat) :
    (arr.drop i).take (k + 1) = (arr.get? i).toList ++ (arr.drop (i + 1)).take k := by
  by_cases h : i < arr.length
  · have hg : arr.get? i = some arr[i] := by simp [List.getElem?_eq_getElem h]
    rw [List.drop_eq_getElem_cons h, hg]
    rfl
  · have h1 : arr.drop i = [] := List.drop_eq_nil_of_le (by omega)
    have h2 : arr.drop (i + 1) = [] := List.drop_eq_nil_of_le (by omega)
    have h3 : arr.get? i = none := by simp; omega
    rw [h1, h2, h3]
    simp

theorem take_succ_drop_back (arr : List Attendee) (i k : Nat) :
    (arr.drop i).take (k + 1) = (arr.drop i).take k ++ (arr.get? (i + k)).toList := by
  rw [List.take_succ]
  simp

theorem interleaveLoop_perm (arr : List Attendee) (fuel i hi : Nat) (res : List Attendee)
    (hfuel : hi - i ≤ fuel) :
    (interleaveLoop arr fuel i hi res).Perm (res ++ (arr.drop i).take (hi - i)) := by
  induction fuel generalizing i hi res with
  | zero =>
    have h0 : hi - i = 0 := by omega
    simp [interleaveLoop, h0]
  | succ fuel ih =>
    rw [interleaveLoop]
    by_cases h1 : i < hi
    · rw [if_pos h1]
      by_cases h2 : i + 1 = hi
      · rw [if_pos h2]
        refine (ih (i + 1) (hi - 1) _ (by omega)).trans ?_
        have e1 : hi - 1 - (i + 1) = 0 := by omega
        have e2 : hi - i = 0 + 1 := by omega
        rw [e1, e2, take_succ_drop]
        simp
      · rw [if_neg h2]
        refine (ih (i + 1) (hi - 1) _ (by omega)).trans ?_
        obtain ⟨k, hk⟩ : ∃ k, hi = i + 1 + (k + 1) := ⟨hi - i - 2, by omega⟩
        have e1 : hi - 1 - (i + 1) = k := by omega
        have e2 : hi - i = (k + 1) + 1 := by omega
        have e3 : hi - 1 = i + 1 + k := by omega
        rw [e1, e2, e3, take_succ_drop arr i (k + 1), take_succ_drop_back arr (i + 1) k]
        simp only [List.append_assoc]
        refine List.Perm.append_left res (List.Perm.append_left _ ?_)
        exact List.perm_append_comm
    · rw [if_neg h1]
      have h0 : hi - i = 0 := by omega
      simp [h0]

theorem interleaveAges_perm (arr : List Attendee) : (interleaveAges arr).Perm arr := by
  have h := interleaveLoop_perm arr arr.length 0 arr.length [] (by omega)
  simpa [interleaveAges] using h

theorem sortByAge_perm (l : List Attendee) : (sortByAge l).Perm l :=
  List.perm_insertionSort ageLE l

theorem genderBucket_perm (nonLeaders : List Attendee) :
    (genderBucket nonLeaders Bucket.Male ++ genderBucket nonLeaders Bucket.Female
      ++ genderBucket nonLeaders Bucket.Other).Perm nonLeaders := by
  induction nonLeaders with
  | nil => simp [genderBucket]
  | cons a rest ih =>
    unfold genderBucket at ih ⊢
    cases hb : bucketOf a
    · simp only [List.filter_cons, hb]
      simpa using ih
    · simp only [List.filter_cons, hb, reduceCtorEq, decide_False, decide_True,
        Bool.false_eq_true, if_false, if_true]
      refine List.Perm.trans ?_ (List.Perm.cons a ih)
      simp only [List.append_assoc]
      exact List.perm_middle
    · simp only [List.filter_cons, hb, reduceCtorEq, decide_False, decide_True,
        Bool.false_eq_true, if_false, if_true]
      refine List.Perm.trans ?_ (List.Perm.cons a ih)
      exact List.perm_middle

theorem orderedBucket_perm (nonLeaders : List Attendee) (g : Bucket) :
    (orderedBucket nonLeaders g).Perm (genderBucket nonLeaders g) :=
  (interleaveAges_perm _).trans (sortByAge_perm _)

theorem orderedByGender_perm (nonLeaders : List Attendee) :
    ((orderedByGender nonLeaders).male ++ (orderedByGender nonLeaders).female
      ++ (orderedByGender nonLeaders).other).Perm nonLeaders := by
  refine List.Perm.trans ?_ (genderBucket_perm nonLeaders)
  exact ((orderedBucket_perm _ _).append (orderedBucket_perm _ _)).append
    (orderedBucket_perm _ _)

/-! ## The strict quota fill in closed form -/

theorem quotaStart_succ (q : List Nat) (t : Nat) :
    quotaStart q (t + 1) = quotaStart q t + q.getD t 0 := by
  unfold quotaStart
  rw [List.take_succ, List.sum_append]
  cases h : q[t]? <;> simp [h]

theorem appendAt_append_length (A B : List Team) (tm : Team) (ms : List Attendee) :
    appendAt (A ++ tm :: B) A.length ms = A ++ (tm ++ ms) :: B := by
  induction A with
  | nil => rfl
  | cons a A ih => simp [appendAt, ih]

theorem appendAt_append_of_length (A B : List Team) (tm : Team) (ms : List Attendee) (t : Nat)
    (h : A.length = t) : appendAt (A ++ tm :: B) t ms = A ++ (tm ++ ms) :: B := by
  subst h
  exact appendAt_append_length A B tm ms

theorem strictFillTeam_eq (mq fq oq : List Nat) (st : Queues × List Team) (t : Nat) :
    strictFillTeam mq fq oq st t =
      ({ male := st.1.male.drop (mq.getD t 0), female := st.1.female.drop (fq.getD t 0),
         other := st.1.other.drop (oq.getD t 0) },
       appendAt st.2 t (st.1.male.take (mq.getD t 0) ++ st.1.female.take (fq.getD t 0)
         ++ st.1.other.take (oq.getD t 0))) := by
  simp only [strictFillTeam, shiftInto_eq, appendAt_appendAt, List.append_assoc]

theorem strictFill_fold (mq fq oq : List Nat) (qs : Queues) (N t : Nat) (ht : t ≤ N) :
    (List.range t).foldl (strictFillTeam mq fq oq) (qs, List.replicate N []) =
      ({ male := qs.male.drop (quotaStart mq t), female := qs.female.drop (quotaStart fq t),
         other := qs.other.drop (quotaStart oq t) },
       (List.range t).map (fun s =>
          quotaSlice qs.male mq s ++ quotaSlice qs.female fq s ++ quotaSlice qs.other oq s)
         ++ List.replicate (N - t) []) := by
  induction t with
  | zero => simp [quotaStart]
  | succ t ih =>
    rw [List.range_succ, List.foldl_append, ih (by omega)]
    simp only [List.foldl_cons, List.foldl_nil, strictFillTeam_eq, List.drop_drop,
      quotaStart_succ, List.map_append, List.map_cons, List.map_nil]
    have hrep : List.replicate (N - t) ([] : Team) = [] :: List.replicate (N - (t + 1)) [] := by
      have : N - t = (N - (t + 1)) + 1 := by omega
      rw [this, List.replicate_succ]
    have hlen : ((List.range t).map (fun s =>
        quotaSlice qs.male mq s ++ quotaSlice qs.female fq s ++ quotaSlice qs.other oq s)).length
          = t := by simp
    rw [hrep, appendAt_append_of_length _ _ _ _ _ hlen]
    simp [quotaSlice]


/-! ## Quotas -/

theorem quotas_fold (N base e : Nat) (he : e ≤ N) :
    (List.range e).foldl (fun q i => q.set (i % N) (q.getD (i % N) 0 + 1))
        (List.replicate N base)
      = (List.range N).map (fun t => base + if t < e then 1 else 0) := by
  induction e with
  | zero =>
    apply List.ext_getElem <;> simp
  | succ e ih =>
    rw [List.range_succ, List.foldl_append, ih (by omega)]
    have hmod : e % N = e := Nat.mod_eq_of_lt (by omega)
    simp only [List.foldl_cons, List.foldl_nil, hmod]
    apply List.ext_getElem
    · simp
    · intro n h1 h2
      have hn : n < N := by simpa using h2
      have he' : e < N := by omega
      simp only [List.getElem_set, List.getElem_map, List.getElem_range]
      by_cases hen : e = n
      · subst hen
        simp [List.getD_eq_getElem?_getD, he']
      · rw [if_neg hen]
        by_cases hlt : n < e
        · have : n < e + 1 := by omega
          simp [hlt, this]
        · have : ¬ n < e + 1 := by omega
          simp [hlt, this]

theorem quotasFor_eq (N count : Nat) (hN : 0 < N) :
    quotasFor N count
      = (List.range N).map (fun t => count / N + if t < count % N then 1 else 0) :=
  quotas_fold N (count / N) (count % N) (Nat.le_of_lt (Nat.mod_lt _ hN))

theorem quotasFor_getD (N count t : Nat) (hN : 0 < N) (ht : t < N) :
    (quotasFor N count).getD t 0 = count / N + if t < count % N then 1 else 0 := by
  rw [quotasFor_eq N count hN]
  simp [List.getD_eq_getElem?_getD, ht]

theorem quotaStart_quotasFor (N count t : Nat) (hN : 0 < N) (ht : t ≤ N) :
    quotaStart (quotasFor N count) t = t * (count / N) + min t (count % N) := by
  induction t with
  | zero => simp [quotaStart]
  | succ t ih =>
    rw [quotaStart_succ, ih (by omega), quotasFor_getD N count t hN (by omega), Nat.succ_mul]
    by_cases h : t < count % N
    · rw [if_pos h]; omega
    · rw [if_neg h]; omega

theorem quotaStart_quotasFor_full (N count : Nat) (hN : 0 < N) :
    quotaStart (quotasFor N count) N = count := by
  rw [quotaStart_quotasFor N count N hN (Nat.le_refl _)]
  have h1 : count % N < N := Nat.mod_lt _ hN
  have h2 := Nat.div_add_mod count N
  rw [Nat.min_eq_right (Nat.le_of_lt h1)]
  exact h2

theorem quotaStart_mono (q : List Nat) (s t : Nat) (h : s ≤ t) :
    quotaStart q s ≤ quotaStart q t := by
  induction t with
  | zero =>
    have : s = 0 := by omega
    subst this
    exact Nat.le_refl _
  | succ t ih =>
    by_cases hs : s = t + 1
    · subst hs
      exact Nat.le_refl _
    · have := ih (by omega)
      rw [quotaStart_succ]
      omega

theorem quotaSlice_length (queue : List Attendee) (N t : Nat) (hN : 0 < N) (ht : t < N) :
    (quotaSlice queue (quotasFor N queue.length) t).length
      = (quotasFor N queue.length).getD t 0 := by
  have h1 := quotaStart_mono (quotasFor N queue.length) (t + 1) N (by omega)
  rw [quotaStart_quotasFor_full N _ hN, quotaStart_succ] at h1
  unfold quotaSlice
  rw [List.length_take, List.length_drop]
  omega

/-! ## The strict assignment in closed form, and its gender counts -/

theorem strictAssign_eq (N : Nat) (qs : Queues) (hN : 0 < N) :
    strictAssign N qs (List.replicate N []) =
      (List.range N).map (fun s =>
        quotaSlice qs.male (quotasFor N qs.male.length) s
          ++ quotaSlice qs.female (quotasFor N qs.female.length) s
          ++ quotaSlice qs.other (quotasFor N qs.other.length) s) := by
  unfold strictAssign strictFill
  rw [strictFill_fold _ _ _ qs N N (Nat.le_refl _)]
  simp only [quotaStart_quotasFor_full _ _ hN, List.drop_length, List.append_nil, Nat.sub_self,
    List.replicate_zero, roundRobin]

theorem strictFill_queues (N : Nat) (qs : Queues) (hN : 0 < N) :
    (strictFill N qs (List.replicate N [])).1 = { male := [], female := [], other := [] } := by
  unfold strictFill
  rw [strictFill_fold _ _ _ qs N N (Nat.le_refl _)]
  simp only [quotaStart_quotasFor_full _ _ hN, List.drop_length]

theorem orderedBucket_bucketOf (nonLeaders : List Attendee) (g : Bucket) (a : Attendee)
    (h : a ∈ orderedBucket nonLeaders g) : bucketOf a = g := by
  have h1 := (orderedBucket_perm nonLeaders g).mem_iff.mp h
  unfold genderBucket at h1
  simpa using (List.mem_filter.mp h1).2

theorem orderedBucket_length (nonLeaders : List Attendee) (g : Bucket) :
    (orderedBucket nonLeaders g).length = (genderBucket nonLeaders g).length :=
  (orderedBucket_perm nonLeaders g).length_eq

theorem quotaSlice_subset (queue : List Attendee) (q : List Nat) (t : Nat) (a : Attendee)
    (h : a ∈ quotaSlice queue q t) : a ∈ queue :=
  List.mem_of_mem_drop (List.mem_of_mem_take h)

theorem bucketCount_append (g : Bucket) (l₁ l₂ : Team) :
    bucketCount g (l₁ ++ l₂) = bucketCount g l₁ + bucketCount g l₂ := by
  simp [bucketCount, List.filter_append]

theorem bucketCount_of_all (g g' : Bucket) (l : Team) (h : ∀ a ∈ l, bucketOf a = g) :
    bucketCount g' l = if g = g' then l.length else 0 := by
  unfold bucketCount
  by_cases hg : g = g'
  · subst hg
    rw [if_pos rfl, List.filter_eq_self.mpr]
    intro a ha
    simp [h a ha]
  · rw [if_neg hg, List.filter_eq_nil_iff.mpr]
    · rfl
    · intro a ha
      simp [h a ha, hg]

theorem strictAssign_bucketCount (nonLeaders : List Attendee) (N : Nat) (g : Bucket) (t : Nat)
    (hN : 0 < N) (ht : t < N) :
    bucketCount g ((strictAssign N (orderedByGender nonLeaders) (List.replicate N [])).getD t [])
      = (genderBucket nonLeaders g).length / N
          + if t < (genderBucket nonLeaders g).length % N then 1 else 0 := by
  rw [strictAssign_eq _ _ hN]
  simp only [List.getD_eq_getElem?_getD, List.getElem?_map, List.getElem?_range ht,
    Option.map_some', Option.getD_some, bucketCount_append, orderedByGender]
  rw [bucketCount_of_all Bucket.Male g _
        (fun a ha => orderedBucket_bucketOf nonLeaders _ a (quotaSlice_subset _ _ _ a ha)),
      bucketCount_of_all Bucket.Female g _
        (fun a ha => orderedBucket_bucketOf nonLeaders _ a (quotaSlice_subset _ _ _ a ha)),
      bucketCount_of_all Bucket.Other g _
        (fun a ha => orderedBucket_bucketOf nonLeaders _ a (quotaSlice_subset _ _ _ a ha))]
  have key : ∀ g' : Bucket,
      (quotaSlice (orderedBucket nonLeaders g')
          (quotasFor N (orderedBucket nonLeaders g').length) t).length
        = (genderBucket nonLeaders g').length / N
            + if t < (genderBucket nonLeaders g').length % N then 1 else 0 := by
    intro g'
    rw [quotaSlice_length _ _ _ hN ht, quotasFor_getD _ _ _ hN ht, orderedBucket_length]
  simp only [key]
  cases g <;> simp

/-! ## Both assignment branches hand out every queue entry exactly once -/

theorem strictFill_fold_perm (mq fq oq : List Nat) (idxs : List Nat) (st : Queues × List Team)
    (h : ∀ t ∈ idxs, t < st.2.length) :
    (idxs.foldl (strictFillTeam mq fq oq) st).2.length = st.2.length ∧
      ((idxs.foldl (strictFillTeam mq fq oq) st).2.flatten
          ++ ((idxs.foldl (strictFillTeam mq fq oq) st).1.male
            ++ (idxs.foldl (strictFillTeam mq fq oq) st).1.female
            ++ (idxs.foldl (strictFillTeam mq fq oq) st).1.other)).Perm
        (st.2.flatten ++ (st.1.male ++ st.1.female ++ st.1.other)) := by
  induction idxs generalizing st with
  | nil => exact ⟨rfl, List.Perm.refl _⟩
  | cons t rest ih =>
    have ht : t < st.2.length := h t (List.mem_cons_self _ _)
    have hlen : (strictFillTeam mq fq oq st t).2.length = st.2.length := by
      rw [strictFillTeam_eq]
      exact appendAt_length _ _ _
    have hrest : ∀ s ∈ rest, s < (strictFillTeam mq fq oq st t).2.length := by
      intro s hs
      rw [hlen]
      exact h s (List.mem_cons_of_mem _ hs)
    obtain ⟨ih1, ih2⟩ := ih (strictFillTeam mq fq oq st t) hrest
    rw [List.foldl_cons]
    refine ⟨ih1.trans hlen, ih2.trans ?_⟩
    rw [strictFillTeam_eq]
    have hp := appendAt_flatten_perm st.2 t
      (st.1.male.take (mq.getD t 0) ++ st.1.female.take (fq.getD t 0)
        ++ st.1.other.take (oq.getD t 0)) ht
    have hm := List.take_append_drop (mq.getD t 0) st.1.male
    have hf := List.take_append_drop (fq.getD t 0) st.1.female
    have ho := List.take_append_drop (oq.getD t 0) st.1.other
    rw [List.perm_iff_count] at hp ⊢
    intro a
    have hp' := hp a
    have hm' := congrArg (List.count a) hm
    have hf' := congrArg (List.count a) hf
    have ho' := congrArg (List.count a) ho
    simp only [List.count_append] at hp' hm' hf' ho' ⊢
    omega

theorem strictAssign_perm (N : Nat) (qs : Queues) (hN : 0 < N) :
    (strictAssign N qs (List.replicate N [])).length = N ∧
      (strictAssign N qs (List.replicate N [])).flatten.Perm
        (qs.male ++ qs.female ++ qs.other) := by
  have hidx : ∀ t ∈ List.range N, t < ((qs, List.replicate N ([] : Team)).2).length := by
    intro t ht
    simpa using ht
  obtain ⟨h1, h2⟩ := strictFill_fold_perm (quotasFor N qs.male.length)
    (quotasFor N qs.female.length) (quotasFor N qs.other.length) (List.range N)
    (qs, List.replicate N []) hidx
  have hlen : (strictFill N qs (List.replicate N [])).2.length = N := by
    unfold strictFill
    rw [h1]
    simp
  unfold strictAssign
  refine ⟨by rw [roundRobin_length, hlen], ?_⟩
  refine (roundRobin_flatten_perm N _ 0 _ hN hlen).trans ?_
  unfold strictFill
  refine h2.trans ?_
  simp

theorem takeOne_append (list merged : List Attendee) (remaining : Bool) :
    (takeOne list merged remaining).2.1 ++ (takeOne list merged remaining).1 = merged ++ list := by
  cases list <;> simp [takeOne]

theorem takeOne_length_le (list merged : List Attendee) (remaining : Bool) :
    (takeOne list merged remaining).1.length ≤ list.length := by
  cases list <;> simp [takeOne]

theorem takeOne_true (list merged : List Attendee) (remaining : Bool)
    (h : (takeOne list merged remaining).2.2 = true) :
    remaining = true ∨ (takeOne list merged remaining).1.length < list.length := by
  cases list with
  | nil => left; simpa [takeOne] using h
  | cons item rest => right; simp [takeOne]

theorem takeOne_false (list merged : List Attendee) (remaining : Bool)
    (h : (takeOne list merged remaining).2.2 = false) :
    remaining = false ∧ (takeOne list merged remaining).1 = [] := by
  cases list with
  | nil => simpa [takeOne] using h
  | cons item rest =>
    simp only [takeOne, Bool.or_eq_false_iff] at h ⊢
    refine ⟨h.1, ?_⟩
    simpa using h.2

theorem mergeLoop_spec (fuel : Nat) (qs : Queues) (merged : List Attendee)
    (hfuel : qs.male.length + qs.female.length + qs.other.length < fuel) :
    ∃ r, mergeLoop fuel qs merged = some r ∧
      r.Perm (merged ++ (qs.male ++ qs.female ++ qs.other)) := by
  induction fuel generalizing qs merged with
  | zero => omega
  | succ fuel ih =>
    rw [mergeLoop]
    have a1 := takeOne_append qs.male merged false
    have a2 := takeOne_append qs.female (takeOne qs.male merged false).2.1
      (takeOne qs.male merged false).2.2
    have a3 := takeOne_append qs.other
      (takeOne qs.female (takeOne qs.male merged false).2.1 (takeOne qs.male merged false).2.2).2.1
      (takeOne qs.female (takeOne qs.male merged false).2.1 (takeOne qs.male merged false).2.2).2.2
    have l1 := takeOne_length_le qs.male merged false
    have l2 := takeOne_length_le qs.female (takeOne qs.male merged false).2.1
      (takeOne qs.male merged false).2.2
    have l3 := takeOne_length_le qs.other
      (takeOne qs.female (takeOne qs.male merged false).2.1 (takeOne qs.male merged false).2.2).2.1
      (takeOne qs.female (takeOne qs.male merged false).2.1 (takeOne qs.male merged false).2.2).2.2
    have t1 := takeOne_true qs.male merged false
    have t2 := takeOne_true qs.female (takeOne qs.male merged false).2.1
      (takeOne qs.male merged false).2.2
    have t3 := takeOne_true qs.other
      (takeOne qs.female (takeOne qs.male merged false).2.1 (takeOne qs.male merged false).2.2).2.1
      (takeOne qs.female (takeOne qs.male merged false).2.1 (takeOne qs.male merged false).2.2).2.2
    have f1 := takeOne_false qs.male merged false
    have f2 := takeOne_false qs.female (takeOne qs.male merged false).2.1
      (takeOne qs.male merged false).2.2
    have f3 := takeOne_false qs.other
      (takeOne qs.female (takeOne qs.male merged false).2.1 (takeOne qs.male merged false).2.2).2.1
      (takeOne qs.female (takeOne qs.male merged false).2.1 (takeOne qs.male merged false).2.2).2.2
    generalize takeOne qs.male merged false = r1 at *
    generalize takeOne qs.female r1.2.1 r1.2.2 = r2 at *
    generalize takeOne qs.other r2.2.1 r2.2.2 = r3 at *
    by_cases hrem : r3.2.2 = true
    · simp only [hrem, if_true]
      have hdec : r1.1.length + r2.1.length + r3.1.length < fuel := by
        rcases t3 hrem with h3 | h3
        · rcases t2 h3 with h2 | h2
          · rcases t1 h2 with h1 | h1
            · exact absurd h1 (by decide)
            · omega
          · omega
        · omega
      obtain ⟨r, hr1, hr2⟩ := ih { male := r1.1, female := r2.1, other := r3.1 } r3.2.1 hdec
      refine ⟨r, hr1, hr2.trans ?_⟩
      rw [List.perm_iff_count]
      intro a
      have a1' := congrArg (List.count a) a1
      have a2' := congrArg (List.count a) a2
      have a3' := congrArg (List.count a) a3
      simp only [List.count_append] at a1' a2' a3' ⊢
      omega
    · have hrem' : r3.2.2 = false := by simpa using hrem
      simp only [hrem', Bool.false_eq_true, if_false]
      obtain ⟨h3, e3⟩ := f3 hrem'
      obtain ⟨h2, e2⟩ := f2 h3
      obtain ⟨_, e1⟩ := f1 h2
      rw [e3, List.append_nil] at a3
      rw [e2, List.append_nil] at a2
      rw [e1, List.append_nil] at a1
      refine ⟨r3.2.1, rfl, ?_⟩
      rw [a3, a2, a1]
      simp

theorem looseAssign_spec (fuel N : Nat) (qs : Queues) (hN : 0 < N)
    (hfuel : qs.male.length + qs.female.length + qs.other.length < fuel) :
    ∃ teams, looseAssign fuel N qs (List.replicate N []) = some teams ∧ teams.length = N ∧
      teams.flatten.Perm (qs.male ++ qs.female ++ qs.other) := by
  obtain ⟨merged, h1, h2⟩ := mergeLoop_spec fuel qs [] hfuel
  refine ⟨roundRobin N merged 0 (List.replicate N []), ?_, ?_, ?_⟩
  · simp [looseAssign, h1]
  · simp [roundRobin_length]
  · refine (roundRobin_flatten_perm N merged 0 _ hN (by simp)).trans ?_
    simpa using h2

theorem assignTeams_spec (fuel : Nat) (nonLeaders : List Attendee) (N : Nat) (opts : OptsArg)
    (hN : 0 < N) (hfuel : nonLeaders.length < fuel) :
    ∃ teams, assignTeams fuel nonLeaders N opts = some teams ∧ teams.length = N ∧
      teams.flatten.Perm nonLeaders := by
  unfold assignTeams
  by_cases hs : isStrict opts = true
  · rw [if_pos hs]
    obtain ⟨h1, h2⟩ := strictAssign_perm N (orderedByGender nonLeaders) hN
    exact ⟨_, rfl, h1, h2.trans (orderedByGender_perm nonLeaders)⟩
  · rw [if_neg hs]
    have hlen := (orderedByGender_perm nonLeaders).length_eq
    simp only [List.length_append] at hlen
    obtain ⟨teams, h1, h2, h3⟩ := looseAssign_spec fuel N (orderedByGender nonLeaders) hN
      (by omega)
    exact ⟨teams, h1, h2, h3.trans (orderedByGender_perm nonLeaders)⟩

theorem map_sortByAge_flatten_perm (teams : List Team) :
    (teams.map sortByAge).flatten.Perm teams.flatten := by
  induction teams with
  | nil => exact List.Perm.refl _
  | cons tm rest ih =>
    simp only [List.map_cons, List.flatten_cons]
    exact (sortByAge_perm tm).append ih

/-! ## The size rebalance -/

theorem foldl_add_length (teams : List Team) (s : Nat) :
    teams.foldl (fun s tm => s + tm.length) s = s + teams.flatten.length := by
  induction teams generalizing s with
  | nil => simp
  | cons tm rest ih =>
    rw [List.foldl_cons, ih]
    simp [Nat.add_assoc]

theorem totalSize_eq (teams : List Team) : totalSize teams = teams.flatten.length := by
  unfold totalSize
  rw [foldl_add_length]
  simp

theorem set_replicate_fold (N v : Nat) (idxs : List Nat) :
    idxs.foldl (fun tg i => tg.set i v) (List.replicate N v) = List.replicate N v := by
  induction idxs with
  | nil => rfl
  | cons i rest ih =>
    rw [List.foldl_cons]
    have h : (List.replicate N v).set i v = List.replicate N v := by
      apply List.ext_getElem
      · simp
      · intro n h1 h2
        simp [List.getElem_set]
    rw [h, ih]

theorem map_const_range (N v : Nat) : (List.range N).map (fun _ => v) = List.replicate N v := by
  apply List.ext_getElem <;> simp

theorem targetSizes_eq (N total : Nat) :
    targetSizes N total
      = List.replicate N (if total % N > 0 then total / N + 1 else total / N) := by
  unfold targetSizes
  by_cases h : total % N > 0
  · simp only [h, if_true, map_const_range]
    exact set_replicate_fold N _ _
  · have h0 : total % N = 0 := by omega
    simp [h0, map_const_range]

theorem popAt_length (teams : List Team) (i : Nat) : (popAt teams i).length = teams.length := by
  induction teams generalizing i with
  | nil => rfl
  | cons tm rest ih =>
    cases i with
    | zero => rfl
    | succ i => simp [popAt, ih]

theorem popAt_getD_other (teams : List Team) (i j : Nat) (h : j ≠ i) :
    (popAt teams i).getD j [] = teams.getD j [] := by
  induction teams generalizing i j with
  | nil => rfl
  | cons tm rest ih =>
    cases i with
    | zero =>
      cases j with
      | zero => exact absurd rfl h
      | succ j => simp [popAt]
    | succ i =>
      cases j with
      | zero => simp [popAt]
      | succ j =>
        have := ih i j (by omega)
        simpa [popAt] using this

theorem popAt_flatten_perm (teams : List Team) (i : Nat) (m : Attendee)
    (h : (teams.getD i []).getLast? = some m) :
    teams.flatten.Perm ((popAt teams i).flatten ++ [m]) := by
  induction teams generalizing i with
  | nil => simp at h
  | cons tm rest ih =>
    cases i with
    | zero =>
      have h' : tm.getLast? = some m := by simpa using h
      have e : tm = tm.dropLast ++ [m] := by
        have := List.dropLast_append_getLast? m h'
        exact this.symm
      simp only [popAt, List.flatten_cons]
      conv_lhs => rw [e]
      simp only [List.append_assoc]
      exact List.Perm.append_left _ List.perm_append_comm
    | succ i =>
      have h' : (rest.getD i []).getLast? = some m := by simpa using h
      simp only [popAt, List.flatten_cons, List.append_assoc]
      exact List.Perm.append_left tm (ih i h')

theorem findUnderfull_some (teams : List Team) (target : List Nat) (j : Nat)
    (h : findUnderfull teams target = some j) :
    j < teams.length ∧ j < target.length ∧ (teams.getD j []).length < target.getD j 0 := by
  induction teams generalizing target j with
  | nil => simp [findUnderfull] at h
  | cons tm rest ih =>
    cases target with
    | nil => simp [findUnderfull] at h
    | cons tg tgs =>
      rw [findUnderfull] at h
      by_cases hlt : tm.length < tg
      · rw [if_pos hlt] at h
        have hj : j = 0 := by simpa using h.symm
        subst hj
        simpa using hlt
      · rw [if_neg hlt] at h
        cases hrec : findUnderfull rest tgs with
        | none => simp [hrec] at h
        | some j' =>
          rw [hrec] at h
          have hj : j = j' + 1 := by simpa using h.symm
          subst hj
          have := ih tgs j' hrec
          simpa using this

theorem findUnderfull_none (teams : List Team) (target : List Nat)
    (h : findUnderfull teams target = none) (j : Nat) (h1 : j < teams.length)
    (h2 : j < target.length) : target.getD j 0 ≤ (teams.getD j []).length := by
  induction teams generalizing target j with
  | nil => simp at h1
  | cons tm rest ih =>
    cases target with
    | nil => simp at h2
    | cons tg tgs =>
      rw [findUnderfull] at h
      by_cases hlt : tm.length < tg
      · rw [if_pos hlt] at h
        exact absurd h (by simp)
      · rw [if_neg hlt] at h
        have hrec : findUnderfull rest tgs = none := by simpa using h
        cases j with
        | zero => simpa using hlt
        | succ j =>
          have := ih tgs hrec j (by simpa using h1) (by simpa using h2)
          simpa using this

theorem excess_popAt (teams : List Team) (target : List Nat) (i : Nat)
    (h1 : i < teams.length) (h2 : i < target.length)
    (h : target.getD i 0 < (teams.getD i []).length) :
    excess (popAt teams i) target + 1 = excess teams target := by
  induction teams generalizing target i with
  | nil => simp at h1
  | cons tm rest ih =>
    cases target with
    | nil => simp at h2
    | cons tg tgs =>
      cases i with
      | zero =>
        have h' : tg < tm.length := by simpa using h
        simp only [popAt, excess, List.length_dropLast]
        omega
      | succ i =>
        have := ih tgs i (by simpa using h1) (by simpa using h2) (by simpa using h)
        simp only [popAt, excess]
        omega

theorem excess_appendAt (teams : List Team) (target : List Nat) (j : Nat) (m : Attendee)
    (h : (teams.getD j []).length < target.getD j 0) :
    excess (appendAt teams j [m]) target = excess teams target := by
  induction teams generalizing target j with
  | nil => rfl
  | cons tm rest ih =>
    cases target with
    | nil => simp at h
    | cons tg tgs =>
      cases j with
      | zero =>
        have h' : tm.length < tg := by simpa using h
        simp only [appendAt, excess, List.length_append, List.length_singleton]
        omega
      | succ j =>
        have := ih tgs j (by simpa using h)
        simp only [appendAt, excess]
        omega

theorem excess_le_total (teams : List Team) (target : List Nat) :
    excess teams target ≤ teams.flatten.length := by
  induction teams generalizing target with
  | nil => simp [excess]
  | cons tm rest ih =>
    cases target with
    | nil => simp [excess]
    | cons tg tgs =>
      have := ih tgs
      simp only [excess, List.flatten_cons, List.length_append]
      omega

theorem rebalanceStep_spec (target : List Nat) (st : List Team × Bool) (i : Nat)
    (hlen : st.1.length = target.length) :
    (rebalanceStep target st i).1.length = st.1.length ∧
      (rebalanceStep target st i).1.flatten.Perm st.1.flatten ∧
      (rebalanceStep target st i = st ∨
        ((rebalanceStep target st i).2 = true ∧
          excess (rebalanceStep target st i).1 target + 1 = excess st.1 target)) := by
  unfold rebalanceStep
  by_cases hover : (st.1.getD i []).length > target.getD i 0
  · rw [if_pos hover]
    cases hj : findUnderfull st.1 target with
    | none => exact ⟨rfl, List.Perm.refl _, Or.inl rfl⟩
    | some j =>
      cases hm : (st.1.getD i []).getLast? with
      | none => exact ⟨rfl, List.Perm.refl _, Or.inl rfl⟩
      | some m =>
        obtain ⟨j1, j2, j3⟩ := findUnderfull_some _ _ _ hj
        have hi : i < st.1.length := by
          by_contra hcon
          rw [List.getD_eq_default _ _ (by omega)] at hm
          simp at hm
        have hij : j ≠ i := by
          intro e
          subst e
          omega
        simp only [pushAt_eq_appendAt]
        refine ⟨?_, ?_, Or.inr ⟨trivial, ?_⟩⟩
        · rw [appendAt_length, popAt_length]
        · refine (appendAt_flatten_perm _ _ _ (by rw [popAt_length]; exact j1)).trans ?_
          exact (popAt_flatten_perm _ _ _ hm).symm
        · rw [excess_appendAt _ _ _ _ (by rw [popAt_getD_other _ _ _ hij]; exact j3)]
          exact excess_popAt _ _ _ hi (by omega) hover
  · rw [if_neg hover]
    exact ⟨rfl, List.Perm.refl _, Or.inl rfl⟩

theorem rebalanceFold_spec (target : List Nat) (idxs : List Nat) (st : List Team × Bool)
    (hlen : st.1.length = target.length) :
    (idxs.foldl (rebalanceStep target) st).1.length = st.1.length ∧
      (idxs.foldl (rebalanceStep target) st).1.flatten.Perm st.1.flatten ∧
      excess (idxs.foldl (rebalanceStep target) st).1 target ≤ excess st.1 target ∧
      ((idxs.foldl (rebalanceStep target) st).2 = true →
        st.2 = true ∨ excess (idxs.foldl (rebalanceStep target) st).1 target < excess st.1 target) ∧
      ((idxs.foldl (rebalanceStep target) st).2 = false →
        idxs.foldl (rebalanceStep target) st = st ∧
          ∀ i ∈ idxs, rebalanceStep target st i = st) := by
  induction idxs generalizing st with
  | nil =>
    refine ⟨rfl, List.Perm.refl _, Nat.le_refl _, fun h => Or.inl h, fun _ => ⟨rfl, ?_⟩⟩
    intro i hi
    simp at hi
  | cons i rest ih =>
    obtain ⟨s1, s2, s3⟩ := rebalanceStep_spec target st i hlen
    obtain ⟨r1, r2, r3, r4, r5⟩ := ih (rebalanceStep target st i) (s1.trans hlen)
    rw [List.foldl_cons]
    refine ⟨r1.trans s1, r2.trans s2, ?_, ?_, ?_⟩
    · rcases s3 with e | ⟨_, e⟩
      · rw [e] at r3 ⊢; exact r3
      · omega
    · intro h
      rcases s3 with e | ⟨_, e⟩
      · rw [e] at r4 h ⊢
        exact r4 h
      · right; omega
    · intro h
      obtain ⟨q1, q2⟩ := r5 h
      have hs : rebalanceStep target st i = st := by
        rcases s3 with e | ⟨e, _⟩
        · exact e
        · rw [q1] at h
          rw [h] at e
          exact absurd e (by decide)
      refine ⟨q1.trans hs, ?_⟩
      intro i' hi'
      rcases List.mem_cons.mp hi' with e | e
      · rw [e]; exact hs
      · have := q2 i' e
        rw [hs] at this
        exact this

theorem rebalanceLoop_spec (N : Nat) (target : List Nat) (fuel : Nat) (teams : List Team)
    (hlen : teams.length = target.length) (hfuel : excess teams target < fuel) :
    ∃ r, rebalanceLoop N target fuel teams = some r ∧ r.length = teams.length ∧
      r.flatten.Perm teams.flatten ∧ rebalancePass N target r = (r, false) := by
  induction fuel generalizing teams with
  | zero => omega
  | succ fuel ih =>
    obtain ⟨p1, p2, p3, p4, p5⟩ := rebalanceFold_spec target (List.range N) (teams, false) hlen
    rw [rebalanceLoop]
    by_cases hch : (rebalancePass N target teams).2 = true
    · simp only [hch, if_true]
      have hdec : excess (rebalancePass N target teams).1 target < excess teams target := by
        rcases p4 hch with e | e
        · simp at e
        · exact e
      obtain ⟨r, h1, h2, h3, h4⟩ := ih (rebalancePass N target teams).1 (p1.trans hlen)
        (by omega)
      exact ⟨r, h1, h2.trans p1, h3.trans p2, h4⟩
    · have hch' : (rebalancePass N target teams).2 = false := by simpa using hch
      simp only [hch', Bool.false_eq_true, if_false]
      obtain ⟨q1, _⟩ := p5 hch'
      have q1' : rebalancePass N target teams = (teams, false) := q1
      refine ⟨_, rfl, ?_, ?_, ?_⟩
      · rw [q1']
      · rw [q1']
      · rw [q1']
        exact q1'

theorem stable_no_underfull (N : Nat) (target : List Nat) (r : List Team)
    (hstable : rebalancePass N target r = (r, false)) (hlen : r.length = target.length)
    (i : Nat) (hi : i < N) (hover : (r.getD i []).length > target.getD i 0) :
    findUnderfull r target = none := by
  obtain ⟨_, _, _, _, p5⟩ := rebalanceFold_spec target (List.range N) (r, false) hlen
  have hfalse : ((List.range N).foldl (rebalanceStep target) (r, false)).2 = false := by
    have : (rebalancePass N target r).2 = false := by rw [hstable]
    exact this
  have hstep := (p5 hfalse).2 i (List.mem_range.mpr hi)
  unfold rebalanceStep at hstep
  simp only [] at hstep
  rw [if_pos hover] at hstep
  cases hj : findUnderfull r target with
  | none => rfl
  | some j =>
    rw [hj] at hstep
    cases hm : (r.getD i []).getLast? with
    | none =>
      have : r.getD i [] = [] := List.getLast?_eq_none_iff.mp hm
      rw [this] at hover
      simp at hover
    | some m =>
      rw [hm] at hstep
      have := congrArg Prod.snd hstep
      simp at this

theorem rebalance_spec (fuel N : Nat) (teams : List Team) (hlen : teams.length = N)
    (hfuel : teams.flatten.length < fuel) :
    ∃ r, rebalance fuel N teams = some r ∧ r.length = N ∧ r.flatten.Perm teams.flatten ∧
      rebalancePass N (targetSizes N teams.flatten.length) r = (r, false) := by
  unfold rebalance
  rw [totalSize_eq]
  have htl : teams.length = (targetSizes N teams.flatten.length).length := by
    rw [targetSizes_eq, List.length_replicate, hlen]
  have hex := excess_le_total teams (targetSizes N teams.flatten.length)
  obtain ⟨r, h1, h2, h3, h4⟩ := rebalanceLoop_spec N _ fuel teams htl (by omega)
  exact ⟨r, h1, h2.trans hlen, h3, h4⟩

theorem normalizeCount_natCast (N : Nat) : normalizeCount (N : ℚ) = N := by
  unfold normalizeCount
  have h : Rat.floor (N : ℚ) = (N : ℤ) := by
    have := Int.floor_natCast (α := ℚ) N
    exact this
  rw [h]
  simp

theorem generateTeams_spec (fuel : Nat) (nonLeaders : List Attendee) (teamCount : ℚ)
    (opts : OptsArg) (hN : 0 < normalizeCount teamCount) (hfuel : nonLeaders.length < fuel) :
    ∃ teams, generateTeams fuel nonLeaders teamCount opts = some teams ∧
      teams.length = normalizeCount teamCount ∧ teams.flatten.Perm nonLeaders ∧
      rebalancePass (normalizeCount teamCount)
        (targetSizes (normalizeCount teamCount) nonLeaders.length) teams = (teams, false) := by
  obtain ⟨assigned, a1, a2, a3⟩ := assignTeams_spec fuel nonLeaders _ opts hN hfuel
  have hsorted := (map_sortByAge_flatten_perm assigned).trans a3
  obtain ⟨r, r1, r2, r3, r4⟩ := rebalance_spec fuel (normalizeCount teamCount)
    (assigned.map sortByAge) (by simpa using a2) (by rw [hsorted.length_eq]; exact hfuel)
  rw [hsorted.length_eq] at r4
  refine ⟨r, ?_, r2, r3.trans hsorted, r4⟩
  unfold generateTeams
  simp only [Nat.ne_of_gt hN, if_false, a1, Option.some_bind, r1]

/-! ## Consequences of a finished rebalance -/

theorem sum_gt_of_ge (l : List Nat) (b : Nat) (h1 : ∀ x ∈ l, b ≤ x) (h2 : ∃ x ∈ l, b < x) :
    l.length * b < l.sum := by
  induction l with
  | nil =>
    obtain ⟨x, hx, _⟩ := h2
    simp at hx
  | cons a rest ih =>
    have ha : b ≤ a := h1 a (List.mem_cons_self _ _)
    have hrest : ∀ x ∈ rest, b ≤ x := fun x hx => h1 x (List.mem_cons_of_mem _ hx)
    have hle : rest.length * b ≤ rest.sum := by
      clear ih h2 h1
      induction rest with
      | nil => simp
      | cons c cs ihc =>
        have hc : b ≤ c := hrest c (List.mem_cons_self _ _)
        have := ihc (fun x hx => hrest x (List.mem_cons_of_mem _ hx))
        simp only [List.length_cons, List.sum_cons, Nat.succ_mul]
        omega
    simp only [List.length_cons, List.sum_cons, Nat.succ_mul]
    obtain ⟨x, hx, hbx⟩ := h2
    rcases List.mem_cons.mp hx with e | e
    · subst e; omega
    · have := ih hrest ⟨x, e, hbx⟩
      omega

theorem eq_of_le_of_sum (l : List Nat) (b : Nat) (h1 : ∀ x ∈ l, x ≤ b)
    (h2 : l.length * b ≤ l.sum) : ∀ x ∈ l, x = b := by
  induction l with
  | nil => intro x hx; simp at hx
  | cons a rest ih =>
    have ha : a ≤ b := h1 a (List.mem_cons_self _ _)
    have hrest : ∀ x ∈ rest, x ≤ b := fun x hx => h1 x (List.mem_cons_of_mem _ hx)
    have hle : rest.sum ≤ rest.length * b := by
      clear ih h2 h1
      induction rest with
      | nil => simp
      | cons c cs ihc =>
        have hc : c ≤ b := hrest c (List.mem_cons_self _ _)
        have := ihc (fun x hx => hrest x (List.mem_cons_of_mem _ hx))
        simp only [List.length_cons, List.sum_cons, Nat.succ_mul]
        omega
    simp only [List.length_cons, List.sum_cons, Nat.succ_mul] at h2
    intro x hx
    rcases List.mem_cons.mp hx with e | e
    · subst e; omega
    · exact ih hrest (by omega) x e

theorem getD_of_mem (teams : List Team) (tm : Team) (h : tm ∈ teams) :
    ∃ i, i < teams.length ∧ teams.getD i [] = tm := by
  obtain ⟨i, hi, e⟩ := List.mem_iff_getElem.mp h
  exact ⟨i, hi, by rw [List.getD_eq_getElem _ _ hi]; exact e⟩

theorem getD_replicate_lt (N v i : Nat) (h : i < N) : (List.replicate N v).getD i 0 = v := by
  rw [List.getD_eq_getElem _ _ (by simpa using h)]
  simp

/-- After a pass that moved nobody, no team is above the common target `v`, provided the
teams hold at most `N * v` members in all. -/
theorem stable_le_target (N v : Nat) (r : List Team) (hlen : r.length = N)
    (hstable : rebalancePass N (List.replicate N v) r = (r, false))
    (htotal : r.flatten.length ≤ N * v) : ∀ tm ∈ r, tm.length ≤ v := by
  intro tm htm
  by_contra hcon
  obtain ⟨i, hi, e⟩ := getD_of_mem r tm htm
  have hover : (r.getD i []).length > (List.replicate N v).getD i 0 := by
    rw [e, getD_replicate_lt N v i (by omega)]
    omega
  have hnone := stable_no_underfull N _ r hstable (by simp [hlen]) i (by omega) hover
  have hall : ∀ x ∈ r.map List.length, v ≤ x := by
    intro x hx
    obtain ⟨tm', htm', rfl⟩ := List.mem_map.mp hx
    obtain ⟨j, hj, e'⟩ := getD_of_mem r tm' htm'
    have := findUnderfull_none r _ hnone j hj (by simp; omega)
    rw [e', getD_replicate_lt N v j (by omega)] at this
    exact this
  have hgt := sum_gt_of_ge (r.map List.length) v hall
    ⟨tm.length, List.mem_map.mpr ⟨tm, htm, rfl⟩, by omega⟩
  rw [List.length_flatten] at htotal
  rw [List.length_map, hlen] at hgt
  omega

theorem generateTeams_congr (fuel : Nat) (nonLeaders : List Attendee) (c₁ c₂ : ℚ)
    (opts : OptsArg) (h : normalizeCount c₁ = normalizeCount c₂) :
    generateTeams fuel nonLeaders c₁ opts = generateTeams fuel nonLeaders c₂ opts := by
  unfold generateTeams
  rw [h]

theorem bucketCount_sortByAge (g : Bucket) (tm : Team) :
    bucketCount g (sortByAge tm) = bucketCount g tm := by
  unfold bucketCount
  exact ((sortByAge_perm tm).filter _).length_eq

theorem getD_map_sortByAge (teams : List Team) (t : Nat) :
    (teams.map sortByAge).getD t [] = sortByAge (teams.getD t []) := by
  simp only [List.getD_eq_getElem?_getD, List.getElem?_map]
  cases teams[t]? <;> rfl

/-! ## More fuel never changes a result -/

theorem mergeLoop_mono (fuel k : Nat) (qs : Queues) (merged r : List Attendee)
    (h : mergeLoop fuel qs merged = some r) : mergeLoop (fuel + k) qs merged = some r := by
  induction fuel generalizing qs merged with
  | zero => simp [mergeLoop] at h
  | succ fuel ih =>
    have e : fuel + 1 + k = (fuel + k) + 1 := by omega
    rw [e]
    rw [mergeLoop] at h ⊢
    split
    · rename_i hrem
      rw [if_pos hrem] at h
      exact ih _ _ h
    · rename_i hrem
      rw [if_neg hrem] at h
      exact h

theorem rebalanceLoop_mono (N : Nat) (target : List Nat) (fuel k : Nat) (teams r : List Team)
    (h : rebalanceLoop N target fuel teams = some r) :
    rebalanceLoop N target (fuel + k) teams = some r := by
  induction fuel generalizing teams with
  | zero => simp [rebalanceLoop] at h
  | succ fuel ih =>
    have e : fuel + 1 + k = (fuel + k) + 1 := by omega
    rw [e]
    rw [rebalanceLoop] at h ⊢
    split
    · rename_i hch
      rw [if_pos hch] at h
      exact ih _ h
    · rename_i hch
      rw [if_neg hch] at h
      exact h

theorem generateTeams_fuel_mono (fuel fuel' : Nat) (nonLeaders : List Attendee) (teamCount : ℚ)
    (opts : OptsArg) (teams : List Team) (hle : fuel ≤ fuel')
    (h : generateTeams fuel nonLeaders teamCount opts = some teams) :
    generateTeams fuel' nonLeaders teamCount opts = some teams := by
  obtain ⟨k, rfl⟩ : ∃ k, fuel' = fuel + k := ⟨fuel' - fuel, by omega⟩
  unfold generateTeams at h ⊢
  by_cases h0 : normalizeCount teamCount = 0
  · simp only [h0, if_true] at h ⊢
    exact h
  · simp only [h0, if_false] at h ⊢
    obtain ⟨assigned, ha, hr⟩ := Option.bind_eq_some.mp h
    have ha' : assignTeams (fuel + k) nonLeaders (normalizeCount teamCount) opts
        = some assigned := by
      unfold assignTeams at ha ⊢
      by_cases hs : isStrict opts = true
      · simp only [hs, if_true] at ha ⊢
        exact ha
      · simp only [hs, if_false] at ha ⊢
        unfold looseAssign at ha ⊢
        obtain ⟨merged, hm, he⟩ := Option.map_eq_some'.mp ha
        rw [mergeLoop_mono fuel k _ _ _ hm]
        simpa using he
    rw [ha', Option.some_bind]
    exact rebalanceLoop_mono _ _ fuel k _ _ hr

/-! ## The claims -/

/-- Claim C1. For every roster, every team count `N ≥ 1` and every options argument,
`generateTeams` returns teams (given fuel above the roster size) whose concatenation is a
permutation of the roster: nothing outside the roster is in a team, and when the ids are
pairwise distinct every participant occurs exactly once over all the teams. -/
theorem generateTeams_perm (fuel : Nat) (nonLeaders : List Attendee) (N : Nat) (opts : OptsArg)
    (hN : 1 ≤ N) (hfuel : nonLeaders.length < fuel) :
    ∃ teams, generateTeams fuel nonLeaders (N : ℚ) opts = some teams ∧
      teams.flatten.Perm nonLeaders ∧
      (∀ tm ∈ teams, ∀ a ∈ tm, a ∈ nonLeaders) ∧
      ((nonLeaders.map Attendee.id).Nodup →
        ∀ a ∈ nonLeaders, (teams.map (List.count a)).sum = 1) := by
  have hpos : 0 < normalizeCount (N : ℚ) := by rw [normalizeCount_natCast]; omega
  obtain ⟨teams, h1, _, h3, _⟩ := generateTeams_spec fuel nonLeaders (N : ℚ) opts hpos hfuel
  refine ⟨teams, h1, h3, ?_, ?_⟩
  · intro tm htm a ha
    exact h3.mem_iff.mp (List.mem_flatten.mpr ⟨tm, htm, ha⟩)
  · intro hnd a ha
    rw [← List.count_flatten, h3.count_eq]
    exact List.count_eq_one_of_mem (List.Nodup.of_map _ hnd) ha

/-- Witness of C1: the roster of one Male, one Female and one Other split into two teams. -/
theorem generateTeams_perm_witness :
    1 ≤ 2 ∧ (makeAttendees 1 1 1).length < 4 ∧
      ∃ teams, generateTeams 4 (makeAttendees 1 1 1) ((2 : Nat) : ℚ) OptsArg.omitted = some teams ∧
        teams.flatten.Perm (makeAttendees 1 1 1) ∧
        (∀ tm ∈ teams, ∀ a ∈ tm, a ∈ makeAttendees 1 1 1) ∧
        (((makeAttendees 1 1 1).map Attendee.id).Nodup →
          ∀ a ∈ makeAttendees 1 1 1, (teams.map (List.count a)).sum = 1) :=
  ⟨by decide, by decide,
    generateTeams_perm 4 (makeAttendees 1 1 1) 2 OptsArg.omitted (by decide) (by decide)⟩

/-- Claim C2, evaluated where it fails: three Male, three Female and three Other members in
four teams under strict parity come back in teams of sizes 3, 3, 3 and 0. -/
theorem generateTeams_size_gap :
    (generateTeams 10 (makeAttendees 3 3 3) 4 (OptsArg.obj (some "strict"))).map sizes
      = some [3, 3, 3, 0] := by
  decide

/-- Claim C3 fails for the returned teams: in the test roster (6 Male, 8 Female, 1 Other,
three teams, strict parity) returned team 0 holds 2 Female members, so it is not true that
every returned team 0 holds the quota `floor(8 / 3) + 1 = 3` of them. -/
theorem strict_quota_counterexample :
    (generateTeams 16 (makeAttendees 6 8 1) 3 (OptsArg.obj (some "strict"))).map
        (fun teams => bucketCount Bucket.Female (teams.getD 0 [])) = some 2 ∧
      ¬ (∀ teams,
          generateTeams 16 (makeAttendees 6 8 1) 3 (OptsArg.obj (some "strict")) = some teams →
          bucketCount Bucket.Female (teams.getD 0 [])
            = (genderBucket (makeAttendees 6 8 1) Bucket.Female).length / 3
                + if 0 < (genderBucket (makeAttendees 6 8 1) Bucket.Female).length % 3 then 1
                  else 0) := by
  have key : (generateTeams 16 (makeAttendees 6 8 1) 3 (OptsArg.obj (some "strict"))).map
      (fun teams => bucketCount Bucket.Female (teams.getD 0 [])) = some 2 := by
    decide
  have hq : (genderBucket (makeAttendees 6 8 1) Bucket.Female).length / 3
      + (if 0 < (genderBucket (makeAttendees 6 8 1) Bucket.Female).length % 3 then 1 else 0)
      = 3 := by
    decide
  refine ⟨key, ?_⟩
  intro h
  cases hg : generateTeams 16 (makeAttendees 6 8 1) 3 (OptsArg.obj (some "strict")) with
  | none =>
    rw [hg] at key
    simp at key
  | some teams =>
    have h1 := h teams hg
    rw [hg] at key
    simp only [Option.map_some', Option.some.injEq] at key
    rw [hq, key] at h1
    exact absurd h1 (by decide)

/-- Claim C3 as amended. In strict mode, for every roster, `N ≥ 1` and bucket `g` with `c`
members, the teams that the quota assignment and the per-team sort hand to the size
rebalance hold `floor(c / N) + 1` members of `g` in team `t < c mod N` and `floor(c / N)`
in the other teams; `generateTeams` returns what the rebalance makes of these teams. -/
theorem strict_quota_before_rebalance (fuel : Nat) (nonLeaders : List Attendee) (N : Nat)
    (hN : 1 ≤ N) :
    ∃ assigned, assignTeams fuel nonLeaders N (OptsArg.obj (some "strict")) = some assigned ∧
      generateTeams fuel nonLeaders (N : ℚ) (OptsArg.obj (some "strict"))
        = rebalance fuel N (assigned.map sortByAge) ∧
      ∀ (g : Bucket) (t : Nat), t < N →
        bucketCount g ((assigned.map sortByAge).getD t [])
          = (genderBucket nonLeaders g).length / N
              + if t < (genderBucket nonLeaders g).length % N then 1 else 0 := by
  have hs : isStrict (OptsArg.obj (some "strict")) = true := by decide
  refine ⟨strictAssign N (orderedByGender nonLeaders) (List.replicate N []), ?_, ?_, ?_⟩
  · simp only [assignTeams, hs, if_true]
  · have hne : N ≠ 0 := by omega
    simp only [generateTeams, normalizeCount_natCast, hne, if_false, assignTeams, hs, if_true,
      Option.some_bind]
  · intro g t ht
    rw [getD_map_sortByAge, bucketCount_sortByAge]
    exact strictAssign_bucketCount nonLeaders N g t (by omega) ht

/-- Witness of the amended C3: the test roster in three teams. -/
theorem strict_quota_before_rebalance_witness :
    1 ≤ 3 ∧
      ∃ assigned,
        assignTeams 16 (makeAttendees 6 8 1) 3 (OptsArg.obj (some "strict")) = some assigned ∧
        generateTeams 16 (makeAttendees 6 8 1) ((3 : Nat) : ℚ) (OptsArg.obj (some "strict"))
          = rebalance 16 3 (assigned.map sortByAge) ∧
        ∀ (g : Bucket) (t : Nat), t < 3 →
          bucketCount g ((assigned.map sortByAge).getD t [])
            = (genderBucket (makeAttendees 6 8 1) g).length / 3
                + if t < (genderBucket (makeAttendees 6 8 1) g).length % 3 then 1 else 0 :=
  ⟨by decide, strict_quota_before_rebalance 16 (makeAttendees 6 8 1) 3 (by decide)⟩

/-- Claim C4, evaluated where it fails: two Male, two Female and one Other member in four
teams under strict parity come back in teams of sizes 2, 2, 1 and 0, whereas the sizes
`floor(5 / 4) + 1` for team 0 and `floor(5 / 4)` for teams 1 to 3 are 2, 1, 1 and 1. -/
theorem generateTeams_misses_target :
    (generateTeams 6 (makeAttendees 2 2 1) 4 (OptsArg.obj (some "strict"))).map sizes
        = some [2, 2, 1, 0] ∧
      (List.range 4).map (fun i => 5 / 4 + if i < 5 % 4 then 1 else 0) = [2, 1, 1, 1] := by
  decide

/-- Claim C5, evaluated where it fails: for a Male aged 10, a Female aged 20 and two Other
aged 5 and 40 in two teams under strict parity, returned team 1 lists the ages 40, 20. -/
theorem generateTeams_unsorted_team :
    (generateTeams 5
        [{ id := "a", gender := some "Male", age := some 10 },
         { id := "b", gender := some "Female", age := some 20 },
         { id := "c", gender := some "Other", age := some 5 },
         { id := "d", gender := some "Other", age := some 40 }]
        2 (OptsArg.obj (some "strict"))).map (fun teams => teams.map (fun tm => tm.map ageOf))
      = some [[5, 10], [40, 20]] := by
  decide

/-- The function of `generateTeams` gives `max(0, floor(teamCount))` teams; a `teamCount`
of zero or below gives the empty team list whatever the roster and the fuel; a
non-negative `teamCount` gives the result of its truncation. -/
theorem generateTeams_count_core (fuel : Nat) (nonLeaders : List Attendee) (teamCount : ℚ)
    (opts : OptsArg) (hfuel : nonLeaders.length < fuel) :
    (∃ teams, generateTeams fuel nonLeaders teamCount opts = some teams ∧
        (teams.length : ℤ) = max 0 ⌊teamCount⌋) ∧
      (teamCount ≤ 0 → ∀ f, generateTeams f nonLeaders teamCount opts = some []) ∧
      (0 ≤ teamCount →
        generateTeams fuel nonLeaders teamCount opts
          = generateTeams fuel nonLeaders ((⌊teamCount⌋₊ : ℕ) : ℚ) opts) := by
  have hfloor : Rat.floor teamCount = ⌊teamCount⌋ := rfl
  have hcast : ((normalizeCount teamCount : ℕ) : ℤ) = max 0 ⌊teamCount⌋ := by
    unfold normalizeCount
    rw [hfloor]
    exact Int.toNat_of_nonneg (le_max_left _ _)
  refine ⟨?_, ?_, ?_⟩
  · by_cases h0 : normalizeCount teamCount = 0
    · refine ⟨[], ?_, ?_⟩
      · simp [generateTeams, h0]
      · rw [← hcast, h0]
        rfl
    · obtain ⟨teams, h1, h2, _⟩ := generateTeams_spec fuel nonLeaders teamCount opts
        (Nat.pos_of_ne_zero h0) hfuel
      exact ⟨teams, h1, by rw [h2, hcast]⟩
  · intro hle f
    have h0 : normalizeCount teamCount = 0 := by
      have h1 : ⌊teamCount⌋ ≤ 0 := Int.floor_nonpos hle
      have h2 : (normalizeCount teamCount : ℤ) = 0 := by
        rw [hcast]
        exact max_eq_left h1
      exact_mod_cast h2
    simp [generateTeams, h0]
  · intro hnn
    apply generateTeams_congr
    rw [normalizeCount_natCast]
    unfold normalizeCount
    rw [hfloor, max_eq_right (Int.floor_nonneg.2 hnn), Int.floor_toNat]

/-- Claim C7. Calling `generateTeams` with the options argument omitted gives the same
result as calling it with `{ parity: 'strict' }`, for every roster, `teamCount` and fuel. -/
theorem generateTeams_default_opts (fuel : Nat) (nonLeaders : List Attendee) (teamCount : ℚ) :
    generateTeams fuel nonLeaders teamCount OptsArg.omitted
      = generateTeams fuel nonLeaders teamCount (OptsArg.obj (some "strict")) := by
  have h : isStrict OptsArg.omitted = isStrict (OptsArg.obj (some "strict")) := rfl
  simp only [generateTeams, assignTeams, h]

/-- Claim C8 fails as stated: for the test roster in three teams under strict parity the
returned teams do not have the gender counts Male 2,2,2, Female 3,3,2, Other 1,0,0. -/
theorem scenario_counts_counterexample :
    ¬ ((generateTeams 16 (makeAttendees 6 8 1) 3 (OptsArg.obj (some "strict"))).map
          (fun teams => (bucketCounts Bucket.Male teams, bucketCounts Bucket.Female teams,
            bucketCounts Bucket.Other teams))
        = some ([2, 2, 2], [3, 3, 2], [1, 0, 0])) := by
  decide

/-- Claim C8 as amended. For the test roster in three teams under strict parity, the teams
handed to the size rebalance have sizes 6,5,4 and gender counts Male 2,2,2, Female 3,3,2,
Other 1,0,0; the returned teams have sizes 5,5,5 and gender counts Male 2,2,2,
Female 2,3,3, Other 1,0,0. -/
theorem scenario_counts :
    (assignTeams 16 (makeAttendees 6 8 1) 3 (OptsArg.obj (some "strict"))).map
        (fun assigned =>
          (sizes (assigned.map sortByAge), bucketCounts Bucket.Male (assigned.map sortByAge),
            bucketCounts Bucket.Female (assigned.map sortByAge),
            bucketCounts Bucket.Other (assigned.map sortByAge)))
        = some ([6, 5, 4], [2, 2, 2], [3, 3, 2], [1, 0, 0]) ∧
      (generateTeams 16 (makeAttendees 6 8 1) 3 (OptsArg.obj (some "strict"))).map
        (fun teams => (sizes teams, bucketCounts Bucket.Male teams,
          bucketCounts Bucket.Female teams, bucketCounts Bucket.Other teams))
        = some ([5, 5, 5], [2, 2, 2], [2, 3, 3], [1, 0, 0]) := by
  decide

/-- Claim C9. For the test roster in three teams with the options omitted, the average ages
reported by `statsForTeams` are 16, 18 and 91/5, and any two of them differ by at most
5/2. -/
theorem scenario_average_spread :
    (generateTeams 16 (makeAttendees 6 8 1) 3 OptsArg.omitted).map
        (fun teams => (statsForTeams teams).map TeamStats.avgAge) = some [16, 18, 91 / 5] ∧
      ∀ x ∈ ([16, 18, 91 / 5] : List ℚ), ∀ y ∈ ([16, 18, 91 / 5] : List ℚ), x - y ≤ 5 / 2 := by
  have key : (generateTeams 16 (makeAttendees 6 8 1) 3 OptsArg.omitted).map
      (fun teams => teams.map (fun tm => (ageSum tm, tm.length)))
        = some [(80, 5), (90, 5), (91, 5)] := by
    decide
  refine ⟨?_, ?_⟩
  · cases hg : generateTeams 16 (makeAttendees 6 8 1) 3 OptsArg.omitted with
    | none =>
      rw [hg] at key
      simp at key
    | some teams =>
      rw [hg] at key
      simp only [Option.map_some', Option.some.injEq] at key
      match teams, key with
      | [t0, t1, t2], key =>
        simp only [List.map_cons, List.map_nil, List.cons.injEq, Prod.mk.injEq, and_true] at key
        obtain ⟨⟨s0, l0⟩, ⟨s1, l1⟩, ⟨s2, l2⟩⟩ := key
        simp only [Option.map_some', statsForTeams, List.map_cons, List.map_nil, avgAgeOf, s0, l0,
          s1, l1, s2, l2]
        norm_num
  · intro x hx y hy
    simp only [List.mem_cons, List.mem_singleton, List.not_mem_nil, or_false] at hx hy
    rcases hx with rfl | rfl | rfl <;> rcases hy with rfl | rfl | rfl <;> norm_num

/-- Claim C10. For every roster, every `N ≥ 1` dividing the roster size and every options
argument, `generateTeams` returns `N` teams of exactly `|R| / N` members each. -/
theorem generateTeams_even_sizes (fuel : Nat) (nonLeaders : List Attendee) (N : Nat)
    (opts : OptsArg) (hN : 1 ≤ N) (hdiv : N ∣ nonLeaders.length)
    (hfuel : nonLeaders.length < fuel) :
    ∃ teams, generateTeams fuel nonLeaders (N : ℚ) opts = some teams ∧ teams.length = N ∧
      ∀ tm ∈ teams, tm.length = nonLeaders.length / N := by
  have hpos : 0 < normalizeCount (N : ℚ) := by rw [normalizeCount_natCast]; omega
  obtain ⟨teams, h1, h2, h3, h4⟩ := generateTeams_spec fuel nonLeaders (N : ℚ) opts hpos hfuel
  rw [normalizeCount_natCast] at h2 h4
  have hmod : nonLeaders.length % N = 0 := Nat.mod_eq_zero_of_dvd hdiv
  have hmul : N * (nonLeaders.length / N) = nonLeaders.length := Nat.mul_div_cancel' hdiv
  rw [targetSizes_eq, hmod] at h4
  simp only [gt_iff_lt, Nat.lt_irrefl, if_false] at h4
  have htot : teams.flatten.length = nonLeaders.length := h3.length_eq
  have hle := stable_le_target N (nonLeaders.length / N) teams h2 h4 (by omega)
  refine ⟨teams, h1, h2, ?_⟩
  have hall : ∀ x ∈ teams.map List.length, x ≤ nonLeaders.length / N := by
    intro x hx
    obtain ⟨tm, htm, rfl⟩ := List.mem_map.mp hx
    exact hle tm htm
  have hsum : (teams.map List.length).length * (nonLeaders.length / N)
      ≤ (teams.map List.length).sum := by
    rw [← List.length_flatten, htot, List.length_map, h2, hmul]
  intro tm htm
  exact eq_of_le_of_sum _ _ hall hsum _ (List.mem_map.mpr ⟨tm, htm, rfl⟩)

/-- Witness of C10: the test roster of 15 members in three teams of five. -/
theorem generateTeams_even_sizes_witness :
    1 ≤ 3 ∧ 3 ∣ (makeAttendees 6 8 1).length ∧ (makeAttendees 6 8 1).length < 16 ∧
      ∃ teams, generateTeams 16 (makeAttendees 6 8 1) ((3 : Nat) : ℚ) OptsArg.omitted
          = some teams ∧ teams.length = 3 ∧
        ∀ tm ∈ teams, tm.length = (makeAttendees 6 8 1).length / 3 :=
  ⟨by decide, by decide, by decide,
    generateTeams_even_sizes 16 (makeAttendees 6 8 1) 3 OptsArg.omitted (by decide) (by decide)
      (by decide)⟩

/-! ## `statsForTeams` -/

theorem ageSum_fold (members : Team) (s : Int) :
    members.foldl (fun s a => s + ageOf a) s = s + (members.map ageOf).sum := by
  induction members generalizing s with
  | nil => simp
  | cons a rest ih =>
    rw [List.foldl_cons, ih]
    simp [Int.add_assoc]

theorem ageSum_eq (members : Team) : ageSum members = (members.map ageOf).sum := by
  unfold ageSum
  rw [ageSum_fold]
  simp

theorem countGet_bumpCount (acc : List (String × Nat)) (key L : String) :
    countGet (bumpCount acc key) L
      = if L = key then some ((countGet acc key).getD 0 + 1) else countGet acc L := by
  induction acc with
  | nil =>
    by_cases h : L = key
    · subst h; simp [bumpCount, countGet]
    · have h' : ¬ key = L := fun e => h e.symm
      simp [bumpCount, countGet, h, h']
  | cons p rest ih =>
    obtain ⟨k, c⟩ := p
    by_cases hk : k = key
    · subst hk
      by_cases h : L = k
      · subst h; simp [bumpCount, countGet]
      · have h' : ¬ k = L := fun e => h e.symm
        simp [bumpCount, countGet, h, h']
    · by_cases h : L = key
      · subst h
        simp [bumpCount, countGet, hk, ih]
      · by_cases h2 : k = L
        · subst h2
          simp [bumpCount, countGet, h]
        · simp [bumpCount, countGet, hk, h, h2, ih]

theorem bumpCount_sum (acc : List (String × Nat)) (key : String) :
    ((bumpCount acc key).map Prod.snd).sum = (acc.map Prod.snd).sum + 1 := by
  induction acc with
  | nil => simp [bumpCount]
  | cons p rest ih =>
    obtain ⟨k, c⟩ := p
    by_cases hk : k = key
    · simp [bumpCount, hk]; omega
    · simp [bumpCount, hk, ih]; omega

theorem bumpCount_keys (acc : List (String × Nat)) (key : String) :
    (bumpCount acc key).map Prod.fst
      = if key ∈ acc.map Prod.fst then acc.map Prod.fst else acc.map Prod.fst ++ [key] := by
  induction acc with
  | nil => simp [bumpCount]
  | cons p rest ih =>
    obtain ⟨k, c⟩ := p
    by_cases hk : k = key
    · subst hk
      simp [bumpCount]
    · have hk' : ¬ key = k := fun e => hk e.symm
      simp only [bumpCount, hk, if_false, List.map_cons, ih, List.mem_cons, hk', false_or]
      by_cases hm : key ∈ rest.map Prod.fst
      · simp [hm]
      · simp [hm]

theorem bumpCount_nodup (acc : List (String × Nat)) (key : String)
    (h : (acc.map Prod.fst).Nodup) : ((bumpCount acc key).map Prod.fst).Nodup := by
  rw [bumpCount_keys]
  by_cases hm : key ∈ acc.map Prod.fst
  · rw [if_pos hm]; exact h
  · rw [if_neg hm]
    exact List.Nodup.append h (List.nodup_singleton key) (by
      intro x hx hx'
      have : x = key := by simpa using hx'
      subst this
      exact hm hx)

theorem labelCount_cons (L : String) (a : Attendee) (rest : Team) :
    labelCount L (a :: rest) = (if genderKey a = L then 1 else 0) + labelCount L rest := by
  unfold labelCount
  by_cases h : genderKey a = L
  · simp [List.filter_cons, h]; omega
  · simp [List.filter_cons, h]

/-- A histogram in which no key carries the count 0. -/
theorem countHistogram_fold (members : Team) (acc : List (String × Nat))
    (hpos : ∀ L, countGet acc L ≠ some 0) (hnd : (acc.map Prod.fst).Nodup) :
    (∀ L, (countGet (members.foldl (fun acc a => bumpCount acc (genderKey a)) acc) L).getD 0
        = (countGet acc L).getD 0 + labelCount L members) ∧
      (∀ L, countGet (members.foldl (fun acc a => bumpCount acc (genderKey a)) acc) L ≠ some 0) ∧
      ((members.foldl (fun acc a => bumpCount acc (genderKey a)) acc).map Prod.snd).sum
        = (acc.map Prod.snd).sum + members.length ∧
      ((members.foldl (fun acc a => bumpCount acc (genderKey a)) acc).map Prod.fst).Nodup := by
  induction members generalizing acc with
  | nil =>
    refine ⟨?_, hpos, ?_, hnd⟩
    · intro L; simp [labelCount]
    · simp
  | cons a rest ih =>
    have hpos' : ∀ L, countGet (bumpCount acc (genderKey a)) L ≠ some 0 := by
      intro L
      rw [countGet_bumpCount]
      by_cases h : L = genderKey a
      · rw [if_pos h]; simp
      · rw [if_neg h]; exact hpos L
    obtain ⟨i1, i2, i3, i4⟩ := ih (bumpCount acc (genderKey a)) hpos'
      (bumpCount_nodup acc _ hnd)
    rw [List.foldl_cons]
    refine ⟨?_, i2, ?_, i4⟩
    · intro L
      rw [i1 L, countGet_bumpCount, labelCount_cons]
      by_cases h : L = genderKey a
      · subst h; simp; omega
      · have h' : ¬ genderKey a = L := fun e => h e.symm
        simp [h, h']
    · rw [i3, bumpCount_sum]
      simp; omega

theorem countHistogram_spec (members : Team) (L : String) :
    countGet (members.foldl (fun acc a => bumpCount acc (genderKey a)) []) L
      = if labelCount L members = 0 then none else some (labelCount L members) := by
  obtain ⟨h1, h2, _, _⟩ := countHistogram_fold members [] (by intro L; simp [countGet]) (by simp)
  have h1' := h1 L
  have h2' := h2 L
  simp only [countGet, Option.getD_none, Nat.zero_add] at h1'
  cases hg : countGet (members.foldl (fun acc a => bumpCount acc (genderKey a)) []) L with
  | none =>
    rw [hg] at h1'
    simp only [Option.getD_none] at h1'
    rw [if_pos h1'.symm]
  | some n =>
    rw [hg] at h1' h2'
    simp only [Option.getD_some] at h1'
    have hn : n ≠ 0 := fun e => h2' (by rw [e])
    rw [if_neg (by omega), h1']

/-! ## Gender bucketing as a loop -/

theorem groupGenders_fold (nonLeaders : List Attendee) (qs : Queues) :
    nonLeaders.foldl
        (fun genders a =>
          match bucketOf a with
          | Bucket.Male => { genders with male := genders.male ++ [a] }
          | Bucket.Female => { genders with female := genders.female ++ [a] }
          | Bucket.Other => { genders with other := genders.other ++ [a] })
        qs
      = { male := qs.male ++ genderBucket nonLeaders Bucket.Male
          female := qs.female ++ genderBucket nonLeaders Bucket.Female
          other := qs.other ++ genderBucket nonLeaders Bucket.Other } := by
  induction nonLeaders generalizing qs with
  | nil => simp [genderBucket]
  | cons a rest ih =>
    rw [List.foldl_cons, ih]
    cases hb : bucketOf a <;> simp [genderBucket, List.filter_cons, hb]

theorem groupGenders_eq (nonLeaders : List Attendee) (g : Bucket) :
    (groupGenders nonLeaders).bucket g = genderBucket nonLeaders g := by
  unfold groupGenders
  rw [groupGenders_fold]
  cases g <;> simp [Queues.bucket]

/-! ## The claims on the statistics, the buckets, the quotas and the targets -/

/-- Claim C13. `statsForTeams` returns one summary per team, in the order of the teams, and
the `count` of each summary is the number of members of its team. -/
theorem statsForTeams_count (teams : List Team) :
    (statsForTeams teams).length = teams.length ∧
      (statsForTeams teams).map TeamStats.count = teams.map List.length := by
  constructor
  · simp [statsForTeams]
  · simp [statsForTeams, Function.comp_def]

/-- Claim C14. The `avgAge` of each summary is the sum of the ages of the members of its
team (a missing age counted as 0) divided by their number, as an exact rational, and it is
0 for a team without members. -/
theorem statsForTeams_avgAge (teams : List Team) :
    (statsForTeams teams).map TeamStats.avgAge
        = teams.map (fun members =>
            if members.length = 0 then (0 : ℚ)
            else (((members.map ageOf).sum : ℤ) : ℚ) / ((members.length : ℕ) : ℚ)) ∧
      (statsForTeams [[]]).map TeamStats.avgAge = [0] := by
  constructor
  · simp only [statsForTeams, List.map_map, Function.comp_def, avgAgeOf, ageSum_eq]
  · simp [statsForTeams, avgAgeOf]

/-- Claim C16. An attendee goes to the Male bucket exactly when its gender is the string
`Male`, to the Female bucket exactly when it is `Female`, and to the Other bucket in every
other case (a missing gender and the spelling `male` included); the arrays built by the
`forEach` are the three buckets, each a subsequence of the roster in roster order, and
every roster entry lies in exactly one of them. -/
theorem gender_buckets (nonLeaders : List Attendee) :
    (∀ a, bucketOf a = Bucket.Male ↔ a.gender = some "Male") ∧
      (∀ a, bucketOf a = Bucket.Female ↔ a.gender = some "Female") ∧
      (∀ a, bucketOf a = Bucket.Other ↔
        (a.gender ≠ some "Male" ∧ a.gender ≠ some "Female")) ∧
      (∀ i age, bucketOf { id := i, gender := none, age := age } = Bucket.Other ∧
        bucketOf { id := i, gender := some "male", age := age } = Bucket.Other) ∧
      (∀ g, (groupGenders nonLeaders).bucket g = genderBucket nonLeaders g) ∧
      (∀ g a, a ∈ genderBucket nonLeaders g ↔ a ∈ nonLeaders ∧ bucketOf a = g) ∧
      (∀ g, (genderBucket nonLeaders g).Sublist nonLeaders) ∧
      (∀ a, nonLeaders.count a
        = (genderBucket nonLeaders Bucket.Male).count a
          + (genderBucket nonLeaders Bucket.Female).count a
          + (genderBucket nonLeaders Bucket.Other).count a) := by
  refine ⟨?_, ?_, ?_, ?_, groupGenders_eq nonLeaders, ?_, ?_, ?_⟩
  · intro a
    unfold bucketOf
    by_cases hf : a.gender = some "Female"
    · simp [hf]
    · by_cases hm : a.gender = some "Male" <;> simp [hf, hm]
  · intro a
    unfold bucketOf
    by_cases hf : a.gender = some "Female"
    · simp [hf]
    · by_cases hm : a.gender = some "Male" <;> simp [hf, hm]
  · intro a
    unfold bucketOf
    by_cases hf : a.gender = some "Female"
    · simp [hf]
    · by_cases hm : a.gender = some "Male" <;> simp [hf, hm]
  · intro i age
    constructor
    · simp [bucketOf]
    · have h1 : ¬ (some "male" : Option String) = some "Female" := by decide
      have h2 : ¬ (some "male" : Option String) = some "Male" := by decide
      simp only [bucketOf, h1, h2, if_false]
  · intro g a
    simp [genderBucket]
  · intro g
    exact List.filter_sublist _
  · intro a
    have h := (genderBucket_perm nonLeaders).count_eq a
    simp only [List.count_append] at h
    omega

/-- Claim C17. For every count `c` and every `N ≥ 1`, `quotasFor(c)` has `N` entries, entry
`t` is `floor(c / N) + 1` for `t < c mod N` and `floor(c / N)` otherwise, and the entries
add up to `c`. -/
theorem quotasFor_spec (N c : Nat) (hN : 1 ≤ N) :
    (quotasFor N c).length = N ∧
      (∀ t, t < N → (quotasFor N c)[t]? = some (c / N + if t < c % N then 1 else 0)) ∧
      (quotasFor N c).sum = c := by
  have hlen : (quotasFor N c).length = N := by
    rw [quotasFor_eq N c (by omega)]
    simp
  refine ⟨hlen, ?_, ?_⟩
  · intro t ht
    rw [quotasFor_eq N c (by omega)]
    simp [ht]
  · have h := quotaStart_quotasFor_full N c (by omega)
    unfold quotaStart at h
    have ht : (quotasFor N c).take N = quotasFor N c :=
      List.take_of_length_le (Nat.le_of_eq hlen)
    rw [ht] at h
    exact h

/-- Witness of C17: eight members over three teams. -/
theorem quotasFor_spec_witness :
    1 ≤ 3 ∧ (quotasFor 3 8).length = 3 ∧
      (∀ t, t < 3 → (quotasFor 3 8)[t]? = some (8 / 3 + if t < 8 % 3 then 1 else 0)) ∧
      (quotasFor 3 8).sum = 8 :=
  ⟨by decide, quotasFor_spec 3 8 (by decide)⟩

/-- Claim C18, evaluated where it fails: for five members in four teams the `target` array
is 2, 2, 2, 2 with sum 8, whereas `floor(5 / 4) + 1` for team 0 and `floor(5 / 4)` for
teams 1 to 3 are 2, 1, 1, 1 with sum 5. -/
theorem targetSizes_all_raised :
    targetSizes 4 (makeAttendees 2 2 1).length = [2, 2, 2, 2] ∧
      (targetSizes 4 (makeAttendees 2 2 1).length).sum = 8 ∧
      (List.range 4).map (fun i => 5 / 4 + if i < 5 % 4 then 1 else 0) = [2, 1, 1, 1] := by
  decide

/-! ## `interleaveAges` position by position -/

theorem interleaveLoop_index (arr : List Attendee) (fuel i hi : Nat) (res : List Attendee)
    (hfuel : hi - i ≤ fuel) (hhi : hi ≤ arr.length) :
    ∃ W, interleaveLoop arr fuel i hi res = res ++ W ∧ W.length = hi - i ∧
      ∀ p, p < hi - i →
        W[p]? = if p % 2 = 0 then arr[i + p / 2]? else arr[hi - 1 - p / 2]? := by
  induction fuel generalizing i hi res with
  | zero =>
    refine ⟨[], by simp [interleaveLoop], by simp; omega, ?_⟩
    intro p hp
    omega
  | succ fuel ih =>
    rw [interleaveLoop]
    by_cases h1 : i < hi
    · rw [if_pos h1]
      have hil : i < arr.length := by omega
      have e1 : arr.get? i = some arr[i] := by simp [List.getElem?_eq_getElem hil]
      by_cases h2 : i + 1 = hi
      · rw [if_pos h2]
        obtain ⟨W, w1, w2, _⟩ := ih (i + 1) (hi - 1) (res ++ (arr.get? i).toList) (by omega)
          (by omega)
        have hW : W = [] := List.eq_nil_of_length_eq_zero (by omega)
        subst hW
        refine ⟨[arr[i]], ?_, by simp; omega, ?_⟩
        · rw [w1, e1]
          simp
        · intro p hp
          have hp0 : p = 0 := by omega
          subst hp0
          simp [List.getElem?_eq_getElem hil]
      · rw [if_neg h2]
        have hjl : hi - 1 < arr.length := by omega
        have e2 : arr.get? (hi - 1) = some arr[hi - 1] := by
          simp [List.getElem?_eq_getElem hjl]
        obtain ⟨W, w1, w2, w3⟩ := ih (i + 1) (hi - 1)
          (res ++ (arr.get? i).toList ++ (arr.get? (hi - 1)).toList) (by omega) (by omega)
        refine ⟨arr[i] :: arr[hi - 1] :: W, ?_, by simp [w2]; omega, ?_⟩
        · rw [w1, e1, e2]
          simp
        · intro p hp
          match p, hp with
          | 0, _ => simp [List.getElem?_eq_getElem hil]
          | 1, _ => simp [List.getElem?_eq_getElem hjl]
          | q + 2, hq =>
            have hw := w3 q (by omega)
            have m1 : (q + 2) % 2 = q % 2 := by omega
            have d1 : i + (q + 2) / 2 = i + 1 + q / 2 := by omega
            have d2 : hi - 1 - (q + 2) / 2 = hi - 1 - 1 - q / 2 := by omega
            simp only [List.getElem?_cons_succ, m1, d1, d2]
            exact hw
    · rw [if_neg h1]
      refine ⟨[], by simp, by simp; omega, ?_⟩
      intro p hp
      omega

theorem interleaveAges_index (arr : List Attendee) :
    (interleaveAges arr).length = arr.length ∧
      ∀ p, p < arr.length →
        (interleaveAges arr)[p]?
          = if p % 2 = 0 then arr[p / 2]? else arr[arr.length - 1 - p / 2]? := by
  obtain ⟨W, w1, w2, w3⟩ := interleaveLoop_index arr arr.length 0 arr.length [] (by omega)
    (Nat.le_refl _)
  have hW : interleaveAges arr = W := by
    unfold interleaveAges
    rw [w1]
    rfl
  rw [hW]
  refine ⟨by simpa using w2, ?_⟩
  intro p hp
  have := w3 p (by simpa using hp)
  simpa using this

/-- Claim C19. For every array of length `n`, `interleaveAges` returns an array of length
`n` that is a permutation of its argument, with `arr[k]` at position `2k` and
`arr[n-1-k]` at position `2k+1` for every position below `n`; for odd `n = 2m+1` the
middle element `arr[m]` is the last entry and no other position reads index `m`. -/
theorem interleaveAges_spec (arr : List Attendee) :
    (interleaveAges arr).length = arr.length ∧
      (interleaveAges arr).Perm arr ∧
      (∀ k, 2 * k < arr.length → (interleaveAges arr)[2 * k]? = arr[k]?) ∧
      (∀ k, 2 * k + 1 < arr.length →
        (interleaveAges arr)[2 * k + 1]? = arr[arr.length - 1 - k]?) ∧
      (∀ m, arr.length = 2 * m + 1 →
        (interleaveAges arr).getLast? = arr[m]? ∧
        (∀ k, 2 * k < arr.length → k = m → 2 * k = arr.length - 1) ∧
        (∀ k, 2 * k + 1 < arr.length → arr.length - 1 - k ≠ m)) := by
  obtain ⟨h1, h2⟩ := interleaveAges_index arr
  refine ⟨h1, interleaveAges_perm arr, ?_, ?_, ?_⟩
  · intro k hk
    rw [h2 (2 * k) hk]
    have e1 : 2 * k % 2 = 0 := by omega
    have e2 : 2 * k / 2 = k := by omega
    simp [e1, e2]
  · intro k hk
    rw [h2 (2 * k + 1) hk]
    have e1 : (2 * k + 1) % 2 = 1 := by omega
    have e2 : (2 * k + 1) / 2 = k := by omega
    simp [e1, e2]
  · intro m hm
    refine ⟨?_, ?_, ?_⟩
    · rw [List.getLast?_eq_getElem?, h1, h2 (arr.length - 1) (by omega)]
      have e1 : (arr.length - 1) % 2 = 0 := by omega
      have e2 : (arr.length - 1) / 2 = m := by omega
      simp [e1, e2]
    · intro k _ hk
      omega
    · intro k hk
      omega

/-- Witness of C19: five members, read at positions 2, 3 and 4. -/
theorem interleaveAges_spec_witness :
    (interleaveAges (makeAttendees 5 0 0))[2 * 1]? = (makeAttendees 5 0 0)[1]? ∧
      (interleaveAges (makeAttendees 5 0 0))[2 * 1 + 1]?
        = (makeAttendees 5 0 0)[(makeAttendees 5 0 0).length - 1 - 1]? ∧
      (interleaveAges (makeAttendees 5 0 0)).getLast? = (makeAttendees 5 0 0)[2]? :=
  ⟨(interleaveAges_spec (makeAttendees 5 0 0)).2.2.1 1 (by decide),
    (interleaveAges_spec (makeAttendees 5 0 0)).2.2.2.1 1 (by decide),
    ((interleaveAges_spec (makeAttendees 5 0 0)).2.2.2.2 2 (by decide)).1⟩

/-- Claim C20 fails as stated: the four Male members of the test roster aged 15, 16, 17
and 18 are in strictly ascending order of age, their interleaving lists the ages 15, 18,
16, 17, and no member at an even position of it is older than a member at an odd
position. -/
theorem interleave_parity_counterexample :
    (makeAttendees 4 0 0).Pairwise (fun x y => ageOf x < ageOf y) ∧
      (interleaveAges (makeAttendees 4 0 0)).map ageOf = [15, 18, 16, 17] ∧
      ¬ ∃ p q, p < 4 ∧ q < 4 ∧ p % 2 = 0 ∧ q % 2 = 1 ∧
          ((interleaveAges (makeAttendees 4 0 0)).map ageOf).getD q 0
            < ((interleaveAges (makeAttendees 4 0 0)).map ageOf).getD p 0 := by
  have e : (interleaveAges (makeAttendees 4 0 0)).map ageOf = [15, 18, 16, 17] := by decide
  refine ⟨by decide, e, ?_⟩
  rw [e]
  rintro ⟨p, q, hp, hq, hp2, hq2, h⟩
  interval_cases p <;> interval_cases q <;> simp_all

/-- Claim C20 as amended. For every array in strictly ascending order of age, the output of
`interleaveAges` holds at each even position a member younger than the member at each odd
position: position parity coincides with age rank. -/
theorem interleave_parity (arr : List Attendee)
    (hsorted : arr.Pairwise (fun x y => ageOf x < ageOf y)) (p q : Nat) (x y : Attendee)
    (hp : p % 2 = 0) (hq : q % 2 = 1)
    (hx : (interleaveAges arr)[p]? = some x) (hy : (interleaveAges arr)[q]? = some y) :
    ageOf x < ageOf y := by
  obtain ⟨h1, h2⟩ := interleaveAges_index arr
  have hpl : p < arr.length := by
    rw [← h1]
    exact (List.getElem?_eq_some_iff.mp hx).1
  have hql : q < arr.length := by
    rw [← h1]
    exact (List.getElem?_eq_some_iff.mp hy).1
  rw [h2 p hpl, if_pos hp] at hx
  rw [h2 q hql, if_neg (by omega)] at hy
  have hlt : p / 2 < arr.length - 1 - q / 2 := by omega
  obtain ⟨hxl, hxe⟩ := List.getElem?_eq_some_iff.mp hx
  obtain ⟨hyl, hye⟩ := List.getElem?_eq_some_iff.mp hy
  have := List.pairwise_iff_getElem.mp hsorted (p / 2) (arr.length - 1 - q / 2) hxl hyl hlt
  rw [hxe, hye] at this
  exact this

/-- Witness of the amended C20: positions 2 and 3 of the interleaving of four members. -/
theorem interleave_parity_witness :
    ageOf { id := "m2", gender := some "Male", age := some 16 }
      < ageOf { id := "m3", gender := some "Male", age := some 17 } :=
  interleave_parity (makeAttendees 4 0 0) (by decide) 2 3
    { id := "m2", gender := some "Male", age := some 16 }
    { id := "m3", gender := some "Male", age := some 17 } (by decide) (by decide) (by decide)
    (by decide)

/-! ## Rosters smaller than the team count, and rosters of a single bucket -/

theorem teams_of_size_one (teams : List Team) (h : ∀ tm ∈ teams, tm.length ≤ 1) :
    (teams.filter (fun tm => decide (tm.length = 1))).length = teams.flatten.length ∧
      (teams.filter (fun tm => decide (tm.length = 0))).length + teams.flatten.length
        = teams.length := by
  induction teams with
  | nil => simp
  | cons tm rest ih =>
    have h1 : tm.length ≤ 1 := h tm (List.mem_cons_self _ _)
    obtain ⟨i1, i2⟩ := ih (fun x hx => h x (List.mem_cons_of_mem _ hx))
    rw [List.length_flatten] at i1 i2
    by_cases h0 : tm.length = 0
    · have hnil : tm = [] := List.length_eq_zero.mp h0
      subst hnil
      simp [List.filter_cons] at i1 i2 ⊢
      omega
    · obtain ⟨a, rfl⟩ : ∃ a, tm = [a] := List.length_eq_one.mp (by omega)
      simp [List.filter_cons] at i1 i2 ⊢
      omega

theorem rebalanceFold_noop (target : List Nat) (teams : List Team) (idxs : List Nat)
    (h : ∀ i ∈ idxs, (teams.getD i []).length ≤ target.getD i 0) :
    idxs.foldl (rebalanceStep target) (teams, false) = (teams, false) := by
  induction idxs with
  | nil => rfl
  | cons i rest ih =>
    have hi := h i (List.mem_cons_self _ _)
    have hstep : rebalanceStep target (teams, false) i = (teams, false) := by
      unfold rebalanceStep
      rw [if_neg (by simpa using hi)]
    rw [List.foldl_cons, hstep]
    exact ih (fun j hj => h j (List.mem_cons_of_mem _ hj))

theorem rebalancePass_noop (N : Nat) (target : List Nat) (teams : List Team)
    (h : ∀ i, i < N → (teams.getD i []).length ≤ target.getD i 0) :
    rebalancePass N target teams = (teams, false) :=
  rebalanceFold_noop target teams (List.range N) (fun i hi => h i (List.mem_range.mp hi))

theorem rebalance_noop (fuel N : Nat) (teams : List Team) (hfuel : 0 < fuel)
    (h : ∀ i, i < N →
      (teams.getD i []).length ≤ (targetSizes N (totalSize teams)).getD i 0) :
    rebalance fuel N teams = some teams := by
  obtain ⟨f, rfl⟩ : ∃ f, fuel = f + 1 := ⟨fuel - 1, by omega⟩
  unfold rebalance
  rw [rebalanceLoop, rebalancePass_noop N _ teams h]
  simp

theorem quotaStart_range (N c t : Nat) (hN : 0 < N) (ht : t ≤ N) :
    quotaStart (quotasFor N c) t
      = ((List.range t).map (fun s => c / N + if s < c % N then 1 else 0)).sum := by
  unfold quotaStart
  rw [quotasFor_eq N c hN, ← List.map_take, List.take_range, Nat.min_eq_left ht]

theorem genderBucket_single (nonLeaders : List Attendee) (g g' : Bucket)
    (hall : ∀ a ∈ nonLeaders, bucketOf a = g) :
    genderBucket nonLeaders g' = if g = g' then nonLeaders else [] := by
  unfold genderBucket
  by_cases hg : g = g'
  · subst hg
    rw [if_pos rfl, List.filter_eq_self]
    intro a ha
    simp [hall a ha]
  · rw [if_neg hg, List.filter_eq_nil_iff]
    intro a ha
    simp [hall a ha, hg]

theorem orderedBucket_single (nonLeaders : List Attendee) (g g' : Bucket)
    (hall : ∀ a ∈ nonLeaders, bucketOf a = g) (hg : g ≠ g') :
    orderedBucket nonLeaders g' = [] := by
  unfold orderedBucket
  rw [genderBucket_single nonLeaders g g' hall, if_neg hg]
  rfl

theorem quotaSlice_nil (q : List Nat) (t : Nat) : quotaSlice [] q t = [] := by
  simp [quotaSlice]

theorem strictAssign_single (nonLeaders : List Attendee) (N : Nat) (g : Bucket) (hN : 0 < N)
    (hall : ∀ a ∈ nonLeaders, bucketOf a = g) :
    strictAssign N (orderedByGender nonLeaders) (List.replicate N [])
      = (List.range N).map (fun t =>
          quotaSlice (orderedBucket nonLeaders g)
            (quotasFor N (orderedBucket nonLeaders g).length) t) := by
  rw [strictAssign_eq _ _ hN]
  cases g
  · simp [orderedByGender, orderedBucket_single nonLeaders Bucket.Male Bucket.Female hall,
      orderedBucket_single nonLeaders Bucket.Male Bucket.Other hall, quotaSlice_nil]
  · simp [orderedByGender, orderedBucket_single nonLeaders Bucket.Female Bucket.Male hall,
      orderedBucket_single nonLeaders Bucket.Female Bucket.Other hall, quotaSlice_nil]
  · simp [orderedByGender, orderedBucket_single nonLeaders Bucket.Other Bucket.Male hall,
      orderedBucket_single nonLeaders Bucket.Other Bucket.Female hall, quotaSlice_nil]

/-- With a team count above the roster size the function of `generateTeams` gives `N`
teams of at most one member each: exactly `|R|` of them hold one member and the other
`N - |R|` are empty. -/
theorem generateTeams_sparse_core (fuel : Nat) (nonLeaders : List Attendee) (N : Nat)
    (opts : OptsArg) (hN : nonLeaders.length < N) (hfuel : nonLeaders.length < fuel) :
    ∃ teams, generateTeams fuel nonLeaders (N : ℚ) opts = some teams ∧ teams.length = N ∧
      (∀ tm ∈ teams, tm.length ≤ 1) ∧
      (teams.filter (fun tm => decide (tm.length = 1))).length = nonLeaders.length ∧
      (teams.filter (fun tm => decide (tm.length = 0))).length = N - nonLeaders.length := by
  have hpos : 0 < normalizeCount (N : ℚ) := by rw [normalizeCount_natCast]; omega
  obtain ⟨teams, h1, h2, h3, h4⟩ := generateTeams_spec fuel nonLeaders (N : ℚ) opts hpos hfuel
  rw [normalizeCount_natCast] at h2 h4
  have htot : teams.flatten.length = nonLeaders.length := h3.length_eq
  have hdiv : nonLeaders.length / N = 0 := Nat.div_eq_of_lt hN
  have hmod : nonLeaders.length % N = nonLeaders.length := Nat.mod_eq_of_lt hN
  rw [targetSizes_eq, hdiv, hmod] at h4
  have hle : ∀ tm ∈ teams, tm.length ≤ 1 := by
    by_cases h0 : nonLeaders.length > 0
    · rw [if_pos h0] at h4
      exact stable_le_target N (0 + 1) teams h2 h4 (by omega)
    · rw [if_neg h0] at h4
      intro tm htm
      have := stable_le_target N 0 teams h2 h4 (by omega) tm htm
      omega
  obtain ⟨c1, c2⟩ := teams_of_size_one teams hle
  exact ⟨teams, h1, h2, hle, by omega, by omega⟩

/-- Claim C12. In strict mode, for every `N ≥ 1` and every roster whose participants all
fall in one bucket, the interleaved bucket is the interleaved age-sorted roster, the quota
assignment gives team `t` the entries of the interleaved bucket at the positions from the
sum of the sizes of the teams before `t` up to that sum plus its own size
`floor(|R| / N) + 1` (for `t < |R| mod N`) or `floor(|R| / N)`, the rebalance pass moves
nobody, and `generateTeams` returns these teams, each sorted by age. -/
theorem single_bucket_partition (fuel : Nat) (nonLeaders : List Attendee) (N : Nat) (g : Bucket)
    (hN : 1 ≤ N) (hfuel : 0 < fuel) (hall : ∀ a ∈ nonLeaders, bucketOf a = g) :
    ∃ assigned,
      assignTeams fuel nonLeaders N (OptsArg.obj (some "strict")) = some assigned ∧
      orderedBucket nonLeaders g = interleaveAges (sortByAge nonLeaders) ∧
      assigned = (List.range N).map (fun t =>
        ((orderedBucket nonLeaders g).drop
            ((List.range t).map (fun s =>
              nonLeaders.length / N + if s < nonLeaders.length % N then 1 else 0)).sum).take
          (nonLeaders.length / N + if t < nonLeaders.length % N then 1 else 0)) ∧
      sizes (assigned.map sortByAge) = (List.range N).map (fun t =>
        nonLeaders.length / N + if t < nonLeaders.length % N then 1 else 0) ∧
      rebalancePass N (targetSizes N (totalSize (assigned.map sortByAge)))
        (assigned.map sortByAge) = (assigned.map sortByAge, false) ∧
      generateTeams fuel nonLeaders (N : ℚ) (OptsArg.obj (some "strict"))
        = some (assigned.map sortByAge) := by
  have hNpos : 0 < N := by omega
  have hs : isStrict (OptsArg.obj (some "strict")) = true := by decide
  have hbucket : genderBucket nonLeaders g = nonLeaders := by
    rw [genderBucket_single nonLeaders g g hall, if_pos rfl]
  have hB : (orderedBucket nonLeaders g).length = nonLeaders.length := by
    rw [orderedBucket_length, hbucket]
  have hA := strictAssign_single nonLeaders N g hNpos hall
  rw [hB] at hA
  -- sizes of the slices
  have hlen : ∀ t, t < N →
      (quotaSlice (orderedBucket nonLeaders g) (quotasFor N nonLeaders.length) t).length
        = nonLeaders.length / N + if t < nonLeaders.length % N then 1 else 0 := by
    intro t ht
    have := quotaSlice_length (orderedBucket nonLeaders g) N t hNpos ht
    rw [hB, quotasFor_getD N _ t hNpos ht] at this
    exact this
  have hget : ∀ t, t < N →
      ((strictAssign N (orderedByGender nonLeaders) (List.replicate N [])).map sortByAge).getD t []
        = sortByAge
            (quotaSlice (orderedBucket nonLeaders g) (quotasFor N nonLeaders.length) t) := by
    intro t ht
    rw [getD_map_sortByAge, hA]
    simp [List.getD_eq_getElem?_getD, ht]
  have htotal : totalSize
      ((strictAssign N (orderedByGender nonLeaders) (List.replicate N [])).map sortByAge)
        = nonLeaders.length := by
    rw [totalSize_eq]
    exact (((map_sortByAge_flatten_perm _).trans (strictAssign_perm N _ hNpos).2).trans
      (orderedByGender_perm nonLeaders)).length_eq
  have hnoop : ∀ i, i < N →
      (((strictAssign N (orderedByGender nonLeaders) (List.replicate N [])).map
          sortByAge).getD i []).length
        ≤ (targetSizes N (totalSize
            ((strictAssign N (orderedByGender nonLeaders) (List.replicate N [])).map
              sortByAge))).getD i 0 := by
    intro i hi
    rw [hget i hi, (sortByAge_perm _).length_eq, hlen i hi, htotal, targetSizes_eq,
      getD_replicate_lt N _ i hi]
    by_cases hm : nonLeaders.length % N > 0
    · rw [if_pos hm]
      split <;> omega
    · rw [if_neg hm]
      have : ¬ i < nonLeaders.length % N := by omega
      rw [if_neg this]
      omega
  refine ⟨strictAssign N (orderedByGender nonLeaders) (List.replicate N []), ?_, ?_, ?_, ?_,
    ?_, ?_⟩
  · simp only [assignTeams, hs, if_true]
  · unfold orderedBucket
    rw [hbucket]
  · rw [hA]
    apply List.map_congr_left
    intro t ht
    have ht' : t < N := List.mem_range.mp ht
    unfold quotaSlice
    rw [quotaStart_range N _ t hNpos (by omega), quotasFor_getD N _ t hNpos ht']
  · unfold sizes
    rw [hA]
    simp only [List.map_map]
    apply List.map_congr_left
    intro t ht
    have ht' : t < N := List.mem_range.mp ht
    simp only [Function.comp_def]
    rw [(sortByAge_perm _).length_eq, hlen t ht']
  · exact rebalancePass_noop N _ _ hnoop
  · have hne : N ≠ 0 := by omega
    simp only [generateTeams, normalizeCount_natCast, hne, if_false, assignTeams, hs, if_true,
      Option.some_bind]
    exact rebalance_noop fuel N _ hfuel hnoop

/-- Witness of C12: five Male members of the test roster in three teams. -/
theorem single_bucket_partition_witness :
    1 ≤ 3 ∧ 0 < 1 ∧ (∀ a ∈ makeAttendees 5 0 0, bucketOf a = Bucket.Male) ∧
      ∃ assigned,
        assignTeams 1 (makeAttendees 5 0 0) 3 (OptsArg.obj (some "strict")) = some assigned ∧
        orderedBucket (makeAttendees 5 0 0) Bucket.Male
          = interleaveAges (sortByAge (makeAttendees 5 0 0)) ∧
        assigned = (List.range 3).map (fun t =>
          ((orderedBucket (makeAttendees 5 0 0) Bucket.Male).drop
              ((List.range t).map (fun s =>
                (makeAttendees 5 0 0).length / 3
                  + if s < (makeAttendees 5 0 0).length % 3 then 1 else 0)).sum).take
            ((makeAttendees 5 0 0).length / 3
              + if t < (makeAttendees 5 0 0).length % 3 then 1 else 0)) ∧
        sizes (assigned.map sortByAge) = (List.range 3).map (fun t =>
          (makeAttendees 5 0 0).length / 3
            + if t < (makeAttendees 5 0 0).length % 3 then 1 else 0) ∧
        rebalancePass 3 (targetSizes 3 (totalSize (assigned.map sortByAge)))
          (assigned.map sortByAge) = (assigned.map sortByAge, false) ∧
        generateTeams 1 (makeAttendees 5 0 0) ((3 : Nat) : ℚ) (OptsArg.obj (some "strict"))
          = some (assigned.map sortByAge) :=
  ⟨by decide, by decide, by decide,
    single_bucket_partition 1 (makeAttendees 5 0 0) 3 Bucket.Male (by decide) (by decide)
      (by decide)⟩

/-! ## Round-robin assignment in closed form -/

theorem div_mod_succ (N L : Nat) (hN : 0 < N) :
    (L % N + 1 < N ∧ (L + 1) / N = L / N ∧ (L + 1) % N = L % N + 1) ∨
      (L % N + 1 = N ∧ (L + 1) / N = L / N + 1 ∧ (L + 1) % N = 0) := by
  have hd := Nat.div_add_mod L N
  have hm := Nat.mod_lt L hN
  by_cases h : L % N + 1 < N
  · left
    refine ⟨h, ?_⟩
    exact (Nat.div_mod_unique hN).mpr ⟨by omega, h⟩
  · right
    have h' : L % N + 1 = N := by omega
    refine ⟨h', ?_⟩
    refine (Nat.div_mod_unique hN).mpr ⟨?_, hN⟩
    rw [Nat.mul_succ]
    omega

theorem count_step (N L t : Nat) (hN : 0 < N) (ht : t < N) :
    (L / N + if t < L % N then 1 else 0) + (if L % N = t then 1 else 0)
      = (L + 1) / N + if t < (L + 1) % N then 1 else 0 := by
  rcases div_mod_succ N L hN with ⟨h1, h2, h3⟩ | ⟨h1, h2, h3⟩
  · rw [h2, h3]
    split <;> split <;> split <;> omega
  · rw [h2, h3]
    split <;> split <;> split <;> omega

theorem pickMod_cons (N t start : Nat) (item : Attendee) (rest : List Attendee) :
    pickMod N t start (item :: rest)
      = (if start % N = t then [item] else []) ++ pickMod N t (start + 1) rest := by
  unfold pickMod
  by_cases h : start % N = t
  · simp [List.filter_cons, h]
  · simp [List.filter_cons, h]

theorem pickMod_concat (N t : Nat) (items : List Attendee) (a : Attendee) :
    pickMod N t 0 (items ++ [a])
      = pickMod N t 0 items ++ (if items.length % N = t then [a] else []) := by
  unfold pickMod
  rw [List.enumFrom_append]
  by_cases h : items.length % N = t
  · simp [List.filter_cons, h]
  · simp [List.filter_cons, h]

theorem pickMod_length (N t : Nat) (items : List Attendee) (hN : 0 < N) (ht : t < N) :
    (pickMod N t 0 items).length
      = items.length / N + if t < items.length % N then 1 else 0 := by
  induction items using List.reverseRecOn with
  | nil => simp [pickMod, Nat.zero_div]
  | append_singleton l a ih =>
    have hone : (if l.length % N = t then [a] else []).length
        = if l.length % N = t then 1 else 0 := by
      by_cases h : l.length % N = t
      · rw [if_pos h, if_pos h]; rfl
      · rw [if_neg h, if_neg h]; rfl
    rw [pickMod_concat, List.length_append, ih, List.length_append, List.length_singleton,
      ← count_step N l.length t hN ht, hone]

theorem roundRobin_getD (N : Nat) (items : List Attendee) (li : Nat) (teams : List Team)
    (t : Nat) (hlen : teams.length = N) (ht : t < N) :
    (roundRobin N items li teams).getD t [] = teams.getD t [] ++ pickMod N t li items := by
  induction items generalizing li teams with
  | nil => simp [roundRobin, pickMod]
  | cons item rest ih =>
    rw [roundRobin, ih (li + 1) _ (by rw [pushAt_eq_appendAt, appendAt_length, hlen]),
      pushAt_eq_appendAt, pickMod_cons]
    by_cases h : li % N = t
    · rw [if_pos h, h, appendAt_getD_same _ _ _ (by omega)]
      simp
    · rw [if_neg h, appendAt_getD_other _ _ _ _ (fun e => h e.symm)]
      simp

theorem roundRobin_eq (N : Nat) (items : List Attendee) :
    roundRobin N items 0 (List.replicate N []) = (List.range N).map (fun t => pickMod N t 0 items) := by
  apply List.ext_getElem
  · simp [roundRobin_length]
  · intro t h1 h2
    have ht : t < N := by simpa using h2
    have := roundRobin_getD N items 0 (List.replicate N []) t (by simp) ht
    rw [List.getD_eq_getElem _ _ h1] at this
    rw [this]
    simp [List.getD_eq_getElem?_getD, ht]

/-! ## The merge loop in closed form -/

theorem takeOne_eq (list merged : List Attendee) (remaining : Bool) :
    takeOne list merged remaining
      = (list.tail, merged ++ list.head?.toList, remaining || !list.tail.isEmpty) := by
  cases list <;> simp [takeOne]

theorem get?_succ_tail (l : List Attendee) (r : Nat) : l.get? (r + 1) = l.tail.get? r := by
  cases l <;> simp

theorem get?_zero_head (l : List Attendee) : l.get? 0 = l.head? := by
  cases l <;> simp

theorem mergedByRounds_succ (qs : Queues) (k : Nat) :
    mergedByRounds qs (k + 1)
      = (qs.male.head?.toList ++ qs.female.head?.toList ++ qs.other.head?.toList)
          ++ mergedByRounds
              { male := qs.male.tail, female := qs.female.tail, other := qs.other.tail } k := by
  unfold mergedByRounds
  rw [List.range_succ_eq_map, List.map_cons, List.flatten_cons, List.map_map]
  simp only [get?_zero_head, Function.comp_def, Nat.succ_eq_add_one, get?_succ_tail]

theorem mergedByRounds_nil (k : Nat) :
    mergedByRounds { male := [], female := [], other := [] } k = [] := by
  unfold mergedByRounds
  simp

theorem mergeLoop_rounds (fuel : Nat) (qs : Queues) (merged : List Attendee) (k : Nat)
    (hfuel : qs.male.length + qs.female.length + qs.other.length < fuel)
    (hm : qs.male.length ≤ k) (hf : qs.female.length ≤ k) (ho : qs.other.length ≤ k) :
    mergeLoop fuel qs merged = some (merged ++ mergedByRounds qs k) := by
  induction fuel generalizing qs merged k with
  | zero => omega
  | succ fuel ih =>
    rw [mergeLoop]
    simp only [takeOne_eq, Bool.false_or]
    cases k with
    | zero =>
      have e1 : qs.male = [] := List.eq_nil_of_length_eq_zero (by omega)
      have e2 : qs.female = [] := List.eq_nil_of_length_eq_zero (by omega)
      have e3 : qs.other = [] := List.eq_nil_of_length_eq_zero (by omega)
      simp [e1, e2, e3, mergedByRounds]
    | succ k =>
      rw [mergedByRounds_succ]
      by_cases hrem : (!qs.male.tail.isEmpty || !qs.female.tail.isEmpty
          || !qs.other.tail.isEmpty) = true
      · rw [if_pos hrem]
        have hlt : qs.male.tail.length + qs.female.tail.length + qs.other.tail.length
            < qs.male.length + qs.female.length + qs.other.length := by
          have a1 : qs.male.tail.length ≤ qs.male.length := by simp
          have a2 : qs.female.tail.length ≤ qs.female.length := by simp
          have a3 : qs.other.tail.length ≤ qs.other.length := by simp
          simp only [Bool.or_eq_true, Bool.not_eq_true', List.isEmpty_eq_false] at hrem
          rcases hrem with (h | h) | h
          · have : qs.male ≠ [] := fun e => h (by rw [e]; rfl)
            have := List.length_pos.mpr this
            simp only [List.length_tail] at *
            omega
          · have : qs.female ≠ [] := fun e => h (by rw [e]; rfl)
            have := List.length_pos.mpr this
            simp only [List.length_tail] at *
            omega
          · have : qs.other ≠ [] := fun e => h (by rw [e]; rfl)
            have := List.length_pos.mpr this
            simp only [List.length_tail] at *
            omega
        rw [ih { male := qs.male.tail, female := qs.female.tail, other := qs.other.tail } _ k
          (by simp only []; omega) (by simp; omega) (by simp; omega) (by simp; omega)]
        simp
      · rw [if_neg hrem]
        simp only [Bool.or_eq_true, Bool.not_eq_true', not_or, Bool.not_eq_false,
          List.isEmpty_iff] at hrem
        obtain ⟨⟨h1, h2⟩, h3⟩ := hrem
        rw [h1, h2, h3, mergedByRounds_nil]
        simp

/-! ## The loose branch in closed form -/

theorem pickTeams_total (N : Nat) (items : List Attendee) (hN : 0 < N) :
    totalSize (((List.range N).map (fun t => pickMod N t 0 items)).map sortByAge)
      = items.length := by
  rw [totalSize_eq, ← roundRobin_eq]
  exact ((map_sortByAge_flatten_perm _).trans
    ((roundRobin_flatten_perm N items 0 _ hN (by simp)).trans (by simp))).length_eq

theorem pickTeams_getD (N : Nat) (items : List Attendee) (i : Nat) (hi : i < N) :
    (((List.range N).map (fun t => pickMod N t 0 items)).map sortByAge).getD i []
      = sortByAge (pickMod N i 0 items) := by
  rw [getD_map_sortByAge]
  simp [List.getD_eq_getElem?_getD, hi]

theorem pickTeams_le_target (N : Nat) (items : List Attendee) (hN : 0 < N) (i : Nat)
    (hi : i < N) :
    ((((List.range N).map (fun t => pickMod N t 0 items)).map sortByAge).getD i []).length
      ≤ (targetSizes N (totalSize
          (((List.range N).map (fun t => pickMod N t 0 items)).map sortByAge))).getD i 0 := by
  rw [pickTeams_getD N items i hi, (sortByAge_perm _).length_eq, pickMod_length N i items hN hi,
    pickTeams_total N items hN, targetSizes_eq, getD_replicate_lt N _ i hi]
  by_cases hm : items.length % N > 0
  · rw [if_pos hm]
    split <;> omega
  · rw [if_neg hm]
    have : ¬ i < items.length % N := by omega
    rw [if_neg this]
    omega

theorem pickTeams_sizes (N : Nat) (items : List Attendee) (hN : 0 < N) :
    sizes (((List.range N).map (fun t => pickMod N t 0 items)).map sortByAge)
      = (List.range N).map (fun t => items.length / N + if t < items.length % N then 1 else 0) := by
  unfold sizes
  simp only [List.map_map]
  apply List.map_congr_left
  intro t ht
  simp only [Function.comp_def]
  rw [(sortByAge_perm _).length_eq, pickMod_length N t items hN (List.mem_range.mp ht)]

theorem orderedByGender_lengths (nonLeaders : List Attendee) :
    (orderedByGender nonLeaders).male.length + (orderedByGender nonLeaders).female.length
      + (orderedByGender nonLeaders).other.length = nonLeaders.length := by
  have h := (orderedByGender_perm nonLeaders).length_eq
  simp only [List.length_append] at h
  omega

theorem mergeLoop_orderedByGender (fuel : Nat) (nonLeaders : List Attendee)
    (hfuel : nonLeaders.length < fuel) :
    mergeLoop fuel (orderedByGender nonLeaders) []
        = some (mergedByRounds (orderedByGender nonLeaders) nonLeaders.length) ∧
      (mergedByRounds (orderedByGender nonLeaders) nonLeaders.length).Perm nonLeaders := by
  have hl := orderedByGender_lengths nonLeaders
  have h1 := mergeLoop_rounds fuel (orderedByGender nonLeaders) [] nonLeaders.length
    (by omega) (by omega) (by omega) (by omega)
  rw [List.nil_append] at h1
  refine ⟨h1, ?_⟩
  obtain ⟨r, hr1, hr2⟩ := mergeLoop_spec fuel (orderedByGender nonLeaders) [] (by omega)
  rw [h1] at hr1
  have e : mergedByRounds (orderedByGender nonLeaders) nonLeaders.length = r :=
    Option.some.inj hr1
  rw [e]
  exact (by simpa using hr2 : r.Perm _).trans (orderedByGender_perm nonLeaders)

theorem loose_pipeline (fuel : Nat) (nonLeaders : List Attendee) (N : Nat) (opts : OptsArg)
    (hN : 1 ≤ N) (hloose : isStrict opts = false) (hfuel : nonLeaders.length < fuel) :
    assignTeams fuel nonLeaders N opts
        = some ((List.range N).map (fun t =>
            pickMod N t 0 (mergedByRounds (orderedByGender nonLeaders) nonLeaders.length))) ∧
      generateTeams fuel nonLeaders (N : ℚ) opts
        = some (((List.range N).map (fun t =>
            pickMod N t 0 (mergedByRounds (orderedByGender nonLeaders) nonLeaders.length))).map
              sortByAge) := by
  have hassign : assignTeams fuel nonLeaders N opts
      = some ((List.range N).map (fun t =>
          pickMod N t 0 (mergedByRounds (orderedByGender nonLeaders) nonLeaders.length))) := by
    unfold assignTeams looseAssign
    rw [hloose, (mergeLoop_orderedByGender fuel nonLeaders hfuel).1]
    simp [roundRobin_eq]
  refine ⟨hassign, ?_⟩
  have hne : N ≠ 0 := by omega
  simp only [generateTeams, normalizeCount_natCast, hne, if_false, hassign, Option.some_bind]
  exact rebalance_noop fuel N _ (by omega) (pickTeams_le_target N _ (by omega))

/-! ## Arithmetic of fair shares -/

theorem ceil_div_eq (N L : Nat) (hN : 0 < N) :
    (L + N - 1) / N = if L % N > 0 then L / N + 1 else L / N := by
  have hd := Nat.div_add_mod L N
  have hm := Nat.mod_lt L hN
  by_cases h : L % N > 0
  · rw [if_pos h]
    refine ((Nat.div_mod_unique hN).mpr (⟨?_, ?_⟩ : (L % N - 1) + N * (L / N + 1) = L + N - 1
      ∧ L % N - 1 < N)).1
    · rw [Nat.mul_succ]; omega
    · omega
  · rw [if_neg h]
    refine ((Nat.div_mod_unique hN).mpr (⟨?_, ?_⟩ : (N - 1) + N * (L / N) = L + N - 1
      ∧ N - 1 < N)).1
    · omega
    · omega

theorem le_mul_target (N L : Nat) (hN : 0 < N) :
    L ≤ N * (if L % N > 0 then L / N + 1 else L / N) := by
  have hd := Nat.div_add_mod L N
  have hm := Nat.mod_lt L hN
  by_cases h : L % N > 0
  · rw [if_pos h, Nat.mul_succ]; omega
  · rw [if_neg h]; omega

theorem div_add_three_le (N a b c : Nat) :
    a / N + b / N + c / N ≤ (a + b + c) / N := by
  by_cases hN : N = 0
  · subst hN; simp
  · have hN' : 0 < N := Nat.pos_of_ne_zero hN
    rw [Nat.le_div_iff_mul_le hN']
    have h1 := Nat.div_mul_le_self a N
    have h2 := Nat.div_mul_le_self b N
    have h3 := Nat.div_mul_le_self c N
    rw [Nat.add_mul, Nat.add_mul]
    omega

theorem div_add_three_lt (N a b c : Nat) (hN : 0 < N) :
    (a + b + c) / N < a / N + b / N + c / N + 3 := by
  rw [Nat.div_lt_iff_lt_mul hN]
  have h1 := Nat.div_add_mod a N
  have h2 := Nat.div_add_mod b N
  have h3 := Nat.div_add_mod c N
  have m1 := Nat.mod_lt a hN
  have m2 := Nat.mod_lt b hN
  have m3 := Nat.mod_lt c hN
  rw [Nat.add_mul, Nat.add_mul, Nat.add_mul, Nat.mul_comm (a / N), Nat.mul_comm (b / N),
    Nat.mul_comm (c / N)]
  omega

/-! ## Frame of a rebalance move -/

theorem findUnderfull_least (teams : List Team) (target : List Nat) (j : Nat)
    (h : findUnderfull teams target = some j) (k : Nat) (hk : k < j) :
    target.getD k 0 ≤ (teams.getD k []).length := by
  induction teams generalizing target j k with
  | nil => simp [findUnderfull] at h
  | cons tm rest ih =>
    cases target with
    | nil => simp [findUnderfull] at h
    | cons tg tgs =>
      rw [findUnderfull] at h
      by_cases hlt : tm.length < tg
      · rw [if_pos hlt] at h
        have hj : j = 0 := by simpa using h.symm
        omega
      · rw [if_neg hlt] at h
        cases hrec : findUnderfull rest tgs with
        | none => simp [hrec] at h
        | some j' =>
          rw [hrec] at h
          have hj : j = j' + 1 := by simpa using h.symm
          cases k with
          | zero => simpa using hlt
          | succ k =>
            have := ih tgs j' hrec k (by omega)
            simpa using this

theorem popAt_getD_same (teams : List Team) (i : Nat) :
    (popAt teams i).getD i [] = (teams.getD i []).dropLast := by
  induction teams generalizing i with
  | nil => rfl
  | cons tm rest ih =>
    cases i with
    | zero => simp [popAt]
    | succ i =>
      have := ih i
      simpa [popAt] using this

theorem appendAt_getD_length_le (teams : List Team) (j k : Nat) (ms : List Attendee) :
    (teams.getD k []).length ≤ ((appendAt teams j ms).getD k []).length := by
  by_cases hkj : k = j
  · subst hkj
    by_cases hk : k < teams.length
    · rw [appendAt_getD_same _ _ _ hk]
      simp
    · rw [List.getD_eq_default _ _ (by omega)]
      simp
  · rw [appendAt_getD_other _ _ _ _ hkj]

theorem rebalanceStep_lower (F : Nat) (target : List Nat) (st : List Team × Bool) (i : Nat)
    (htg : ∀ k, F ≤ target.getD k 0 ∨ st.1.length ≤ k)
    (hinv : ∀ k, k < st.1.length → F ≤ (st.1.getD k []).length) :
    ∀ k, k < (rebalanceStep target st i).1.length →
      F ≤ ((rebalanceStep target st i).1.getD k []).length := by
  unfold rebalanceStep
  by_cases hover : (st.1.getD i []).length > target.getD i 0
  · rw [if_pos hover]
    cases hj : findUnderfull st.1 target with
    | none => exact hinv
    | some j =>
      cases hm : (st.1.getD i []).getLast? with
      | none => exact hinv
      | some m =>
        intro k hk
        simp only [pushAt_eq_appendAt, appendAt_length, popAt_length] at hk ⊢
        refine Nat.le_trans ?_ (appendAt_getD_length_le _ j k [m])
        by_cases hki : k = i
        · subst hki
          rw [popAt_getD_same, List.length_dropLast]
          rcases htg k with h | h
          · omega
          · omega
        · rw [popAt_getD_other _ _ _ hki]
          exact hinv k hk
  · rw [if_neg hover]
    exact hinv

theorem rebalanceFold_lower (F : Nat) (target : List Nat) (idxs : List Nat)
    (st : List Team × Bool) (hlen : st.1.length = target.length)
    (htg : ∀ k, F ≤ target.getD k 0 ∨ st.1.length ≤ k)
    (hinv : ∀ k, k < st.1.length → F ≤ (st.1.getD k []).length) :
    ∀ k, k < (idxs.foldl (rebalanceStep target) st).1.length →
      F ≤ ((idxs.foldl (rebalanceStep target) st).1.getD k []).length := by
  induction idxs generalizing st with
  | nil => exact hinv
  | cons i rest ih =>
    rw [List.foldl_cons]
    have hl := (rebalanceStep_spec target st i hlen).1
    exact ih (rebalanceStep target st i) (hl.trans hlen) (by rw [hl]; exact htg)
      (rebalanceStep_lower F target st i htg hinv)

theorem rebalanceLoop_lower (F N : Nat) (target : List Nat) (fuel : Nat) (teams r : List Team)
    (hlen : teams.length = target.length)
    (htg : ∀ k, F ≤ target.getD k 0 ∨ teams.length ≤ k)
    (hinv : ∀ k, k < teams.length → F ≤ (teams.getD k []).length)
    (h : rebalanceLoop N target fuel teams = some r) :
    ∀ k, k < r.length → F ≤ (r.getD k []).length := by
  induction fuel generalizing teams with
  | zero => simp [rebalanceLoop] at h
  | succ fuel ih =>
    rw [rebalanceLoop] at h
    have hl := (rebalanceFold_spec target (List.range N) (teams, false) hlen).1
    have hlow := rebalanceFold_lower F target (List.range N) (teams, false) hlen htg hinv
    by_cases hch : (rebalancePass N target teams).2 = true
    · rw [if_pos hch] at h
      exact ih (rebalancePass N target teams).1 (hl.trans hlen)
        (by intro k; rcases htg k with h' | h'
            · exact Or.inl h'
            · right; rw [show (rebalancePass N target teams).1.length = teams.length from hl]
              exact h')
        hlow h
    · rw [if_neg hch] at h
      have e : (rebalancePass N target teams).1 = r := Option.some.inj h
      rw [← e]
      exact hlow

theorem filter_bucket_of_all (g g' : Bucket) (l : List Attendee)
    (h : ∀ a ∈ l, bucketOf a = g) :
    l.filter (fun a => decide (bucketOf a = g')) = if g = g' then l else [] := by
  by_cases hg : g = g'
  · subst hg
    rw [if_pos rfl, List.filter_eq_self]
    intro a ha
    simp [h a ha]
  · rw [if_neg hg, List.filter_eq_nil_iff]
    intro a ha
    simp [h a ha, hg]

theorem strictFill_teams (nonLeaders : List Attendee) (N : Nat) :
    (strictFill N (orderedByGender nonLeaders) (List.replicate N [])).2
      = (List.range N).map (fun t =>
          quotaSlice (orderedBucket nonLeaders Bucket.Male)
              (quotasFor N (genderBucket nonLeaders Bucket.Male).length) t
            ++ quotaSlice (orderedBucket nonLeaders Bucket.Female)
              (quotasFor N (genderBucket nonLeaders Bucket.Female).length) t
            ++ quotaSlice (orderedBucket nonLeaders Bucket.Other)
              (quotasFor N (genderBucket nonLeaders Bucket.Other).length) t) := by
  unfold strictFill
  rw [strictFill_fold _ _ _ _ N N (Nat.le_refl _)]
  simp [orderedByGender, orderedBucket_length]

/-! ## The claims on the two branches, the rebalance and its bounds -/

/-- Claim C21. In strict mode, for every roster and `N ≥ 1`, at the end of the quota fill
team `t` is the Male slice followed by the Female slice followed by the Other slice, where
the slice of bucket `g` holds the entries of the interleaved bucket at the positions from
`q[0] + ... + q[t-1]` on, `q[t]` of them, in queue order, with `q = quotasFor(c_g)`; these
are exactly the members of bucket `g` in the team. -/
theorem strict_fill_slices (nonLeaders : List Attendee) (N : Nat) (hN : 1 ≤ N) :
    (strictFill N (orderedByGender nonLeaders) (List.replicate N [])).2
        = (List.range N).map (fun t =>
            quotaSlice (orderedBucket nonLeaders Bucket.Male)
                (quotasFor N (genderBucket nonLeaders Bucket.Male).length) t
              ++ quotaSlice (orderedBucket nonLeaders Bucket.Female)
                (quotasFor N (genderBucket nonLeaders Bucket.Female).length) t
              ++ quotaSlice (orderedBucket nonLeaders Bucket.Other)
                (quotasFor N (genderBucket nonLeaders Bucket.Other).length) t) ∧
      ∀ (g : Bucket) (t : Nat), t < N →
        ((strictFill N (orderedByGender nonLeaders) (List.replicate N [])).2.getD t []).filter
            (fun a => decide (bucketOf a = g))
          = ((orderedBucket nonLeaders g).drop
              (((quotasFor N (genderBucket nonLeaders g).length).take t).sum)).take
            ((quotasFor N (genderBucket nonLeaders g).length).getD t 0) ∧
        (((orderedBucket nonLeaders g).drop
              (((quotasFor N (genderBucket nonLeaders g).length).take t).sum)).take
            ((quotasFor N (genderBucket nonLeaders g).length).getD t 0)).length
          = (quotasFor N (genderBucket nonLeaders g).length).getD t 0 := by
  refine ⟨strictFill_teams nonLeaders N, ?_⟩
  intro g t ht
  have hmem : ∀ g' : Bucket, ∀ a ∈ quotaSlice (orderedBucket nonLeaders g')
      (quotasFor N (genderBucket nonLeaders g').length) t, bucketOf a = g' :=
    fun g' a ha => orderedBucket_bucketOf nonLeaders g' a (quotaSlice_subset _ _ _ a ha)
  constructor
  · rw [strictFill_teams]
    simp only [List.getD_eq_getElem?_getD, List.getElem?_map, List.getElem?_range ht,
      Option.map_some', Option.getD_some, List.filter_append]
    rw [filter_bucket_of_all Bucket.Male g _ (hmem Bucket.Male),
      filter_bucket_of_all Bucket.Female g _ (hmem Bucket.Female),
      filter_bucket_of_all Bucket.Other g _ (hmem Bucket.Other)]
    cases g <;> simp [quotaSlice, quotaStart]
  · have := quotaSlice_length (orderedBucket nonLeaders g) N t (by omega) ht
    rw [orderedBucket_length] at this
    exact this

/-- Witness of C21: the test roster in three teams. -/
theorem strict_fill_slices_witness :
    1 ≤ 3 ∧ (strictFill 3 (orderedByGender (makeAttendees 6 8 1)) (List.replicate 3 [])).2
        = (List.range 3).map (fun t =>
            quotaSlice (orderedBucket (makeAttendees 6 8 1) Bucket.Male)
                (quotasFor 3 (genderBucket (makeAttendees 6 8 1) Bucket.Male).length) t
              ++ quotaSlice (orderedBucket (makeAttendees 6 8 1) Bucket.Female)
                (quotasFor 3 (genderBucket (makeAttendees 6 8 1) Bucket.Female).length) t
              ++ quotaSlice (orderedBucket (makeAttendees 6 8 1) Bucket.Other)
                (quotasFor 3 (genderBucket (makeAttendees 6 8 1) Bucket.Other).length) t) :=
  ⟨by decide, (strict_fill_slices (makeAttendees 6 8 1) 3 (by decide)).1⟩

/-- Claim C22. In strict mode, for every roster and `N ≥ 1`, the quota fill leaves the three
gender queues empty, so the list of leftovers is empty and the strict branch ends with the
teams of the quota fill: the round-robin fallback assigns nobody. -/
theorem strict_fill_no_leftovers (nonLeaders : List Attendee) (N : Nat) (hN : 1 ≤ N) :
    (strictFill N (orderedByGender nonLeaders) (List.replicate N [])).1
        = { male := [], female := [], other := [] } ∧
      (strictFill N (orderedByGender nonLeaders) (List.replicate N [])).1.male
          ++ (strictFill N (orderedByGender nonLeaders) (List.replicate N [])).1.female
          ++ (strictFill N (orderedByGender nonLeaders) (List.replicate N [])).1.other = [] ∧
      strictAssign N (orderedByGender nonLeaders) (List.replicate N [])
        = (strictFill N (orderedByGender nonLeaders) (List.replicate N [])).2 := by
  have h := strictFill_queues N (orderedByGender nonLeaders) (by omega)
  refine ⟨h, by rw [h]; rfl, ?_⟩
  unfold strictAssign
  simp only [h, List.append_nil, roundRobin]

/-- Witness of C22: the test roster in three teams. -/
theorem strict_fill_no_leftovers_witness :
    1 ≤ 3 ∧
      (strictFill 3 (orderedByGender (makeAttendees 6 8 1)) (List.replicate 3 [])).1
        = { male := [], female := [], other := [] } :=
  ⟨by decide, (strict_fill_no_leftovers (makeAttendees 6 8 1) 3 (by decide)).1⟩

/-- Claim C23. In loose mode, for every roster, `N ≥ 1` and fuel above the roster size,
`merged` is the sequence built round by round (`mergedByRounds`), a permutation of the
roster, and team `t` returned by `generateTeams` is the stable sort by age of the entries
of `merged` at the indices `i` with `i mod N = t`. -/
theorem loose_teams (fuel : Nat) (nonLeaders : List Attendee) (N : Nat) (opts : OptsArg)
    (hN : 1 ≤ N) (hloose : isStrict opts = false) (hfuel : nonLeaders.length < fuel) :
    mergeLoop fuel (orderedByGender nonLeaders) []
        = some (mergedByRounds (orderedByGender nonLeaders) nonLeaders.length) ∧
      (mergedByRounds (orderedByGender nonLeaders) nonLeaders.length).Perm nonLeaders ∧
      generateTeams fuel nonLeaders (N : ℚ) opts
        = some ((List.range N).map (fun t =>
            sortByAge (pickMod N t 0
              (mergedByRounds (orderedByGender nonLeaders) nonLeaders.length)))) := by
  obtain ⟨m1, m2⟩ := mergeLoop_orderedByGender fuel nonLeaders hfuel
  refine ⟨m1, m2, ?_⟩
  rw [(loose_pipeline fuel nonLeaders N opts hN hloose hfuel).2, List.map_map]
  rfl

/-- Witness of C23: the test roster in three teams with a `parity` other than `strict`. -/
theorem loose_teams_witness :
    1 ≤ 3 ∧ isStrict (OptsArg.obj (some "loose")) = false ∧ (makeAttendees 6 8 1).length < 16 ∧
      generateTeams 16 (makeAttendees 6 8 1) ((3 : Nat) : ℚ) (OptsArg.obj (some "loose"))
        = some ((List.range 3).map (fun t =>
            sortByAge (pickMod 3 t 0
              (mergedByRounds (orderedByGender (makeAttendees 6 8 1))
                (makeAttendees 6 8 1).length)))) :=
  ⟨by decide, by decide, by decide,
    (loose_teams 16 (makeAttendees 6 8 1) 3 (OptsArg.obj (some "loose")) (by decide) (by decide)
      (by decide)).2.2⟩

/-- The loops of `generateTeams` finish within `|R| + 1` passes: with fuel above the roster
size the function gives a result, more fuel gives the same result, and for `N ≥ 1` the
teams are left unchanged by a further rebalance pass. -/
theorem generateTeams_loops_core (fuel : Nat) (nonLeaders : List Attendee) (teamCount : ℚ)
    (opts : OptsArg) (hfuel : nonLeaders.length < fuel) :
    ∃ teams, generateTeams fuel nonLeaders teamCount opts = some teams ∧
      (∀ fuel', fuel ≤ fuel' → generateTeams fuel' nonLeaders teamCount opts = some teams) ∧
      (0 < normalizeCount teamCount →
        rebalancePass (normalizeCount teamCount)
          (targetSizes (normalizeCount teamCount) nonLeaders.length) teams = (teams, false)) := by
  by_cases h0 : normalizeCount teamCount = 0
  · have h : generateTeams fuel nonLeaders teamCount opts = some [] := by
      simp [generateTeams, h0]
    exact ⟨[], h, fun fuel' hle => generateTeams_fuel_mono fuel fuel' _ _ _ _ hle h,
      fun hpos => absurd h0 (by omega)⟩
  · obtain ⟨teams, h1, _, _, h4⟩ := generateTeams_spec fuel nonLeaders teamCount opts
      (Nat.pos_of_ne_zero h0) hfuel
    exact ⟨teams, h1, fun fuel' hle => generateTeams_fuel_mono fuel fuel' _ _ _ _ hle h1,
      fun _ => h4⟩

/-- Claim C25 fails as stated: for the test roster in three teams, an options object
without a `parity` field does not give the teams of `{ parity: 'strict' }`. -/
theorem empty_opts_counterexample :
    generateTeams 16 (makeAttendees 6 8 1) 3 (OptsArg.obj none)
      ≠ generateTeams 16 (makeAttendees 6 8 1) 3 (OptsArg.obj (some "strict")) := by
  decide

/-- Claim C25 as amended. An options object without a `parity` field fails the test
`opts.parity === 'strict'` and takes the loose branch: for every roster, `teamCount` and
fuel it gives the result of `{ parity: 'loose' }`; only the omitted argument gives the
result of `{ parity: 'strict' }`. -/
theorem empty_opts_loose (fuel : Nat) (nonLeaders : List Attendee) (teamCount : ℚ) :
    isStrict (OptsArg.obj none) = false ∧
      generateTeams fuel nonLeaders teamCount (OptsArg.obj none)
        = generateTeams fuel nonLeaders teamCount (OptsArg.obj (some "loose")) ∧
      generateTeams fuel nonLeaders teamCount OptsArg.omitted
        = generateTeams fuel nonLeaders teamCount (OptsArg.obj (some "strict")) := by
  have h1 : isStrict (OptsArg.obj none) = false := by decide
  have h2 : isStrict (OptsArg.obj (some "loose")) = false := by decide
  have h3 : isStrict OptsArg.omitted = isStrict (OptsArg.obj (some "strict")) := rfl
  refine ⟨h1, ?_, ?_⟩
  · simp only [generateTeams, assignTeams, h1, h2]
  · simp only [generateTeams, assignTeams, h3]

/-- Claim C26. Whenever a step of the rebalance pass changes the state, it has taken the
last member `m` of team `i`, whose size exceeded its target, and appended it at the end of
team `j`, the lowest-indexed team below its target; every other team is unchanged, the
number of teams is unchanged, and team `j` does not exceed its target afterwards. -/
theorem rebalance_move (target : List Nat) (st : List Team × Bool) (i : Nat)
    (hmove : rebalanceStep target st i ≠ st) :
    ∃ j m, target.getD i 0 < (st.1.getD i []).length ∧
      (st.1.getD i []).getLast? = some m ∧
      j < st.1.length ∧ (st.1.getD j []).length < target.getD j 0 ∧
      (∀ k, k < j → target.getD k 0 ≤ (st.1.getD k []).length) ∧
      (rebalanceStep target st i).1.getD i [] = (st.1.getD i []).dropLast ∧
      (rebalanceStep target st i).1.getD j [] = st.1.getD j [] ++ [m] ∧
      (∀ k, k ≠ i → k ≠ j → (rebalanceStep target st i).1.getD k [] = st.1.getD k []) ∧
      (rebalanceStep target st i).1.length = st.1.length ∧
      ((rebalanceStep target st i).1.getD j []).length ≤ target.getD j 0 ∧
      (rebalanceStep target st i).2 = true := by
  unfold rebalanceStep at hmove ⊢
  by_cases hover : (st.1.getD i []).length > target.getD i 0
  · rw [if_pos hover] at hmove ⊢
    cases hj : findUnderfull st.1 target with
    | none => rw [hj] at hmove; exact absurd rfl hmove
    | some j =>
      cases hm : (st.1.getD i []).getLast? with
      | none => rw [hj, hm] at hmove; exact absurd rfl hmove
      | some m =>
        obtain ⟨j1, _, j3⟩ := findUnderfull_some _ _ _ hj
        have hij : j ≠ i := by
          intro e
          subst e
          omega
        have hji : i ≠ j := fun e => hij e.symm
        simp only [pushAt_eq_appendAt]
        refine ⟨j, m, hover, rfl, j1, j3, findUnderfull_least _ _ _ hj, ?_, ?_, ?_, ?_, ?_,
          trivial⟩
        · rw [appendAt_getD_other _ _ _ _ hji, popAt_getD_same]
        · rw [appendAt_getD_same _ _ _ (by rw [popAt_length]; exact j1),
            popAt_getD_other _ _ _ hij]
        · intro k hki hkj
          rw [appendAt_getD_other _ _ _ _ hkj, popAt_getD_other _ _ _ hki]
        · rw [appendAt_length, popAt_length]
        · rw [appendAt_getD_same _ _ _ (by rw [popAt_length]; exact j1),
            popAt_getD_other _ _ _ hij, List.length_append, List.length_singleton]
          omega
  · rw [if_neg hover] at hmove
    exact absurd rfl hmove

/-- Witness of C26: teams of sizes 3 and 1 with targets 2 and 2, step `i = 0`. -/
theorem rebalance_move_witness :
    ∃ j m, ([2, 2] : List Nat).getD 0 0
        < (((makeAttendees 3 1 0).take 3 :: [(makeAttendees 3 1 0).drop 3], false).1.getD 0
            []).length ∧
      (((makeAttendees 3 1 0).take 3 :: [(makeAttendees 3 1 0).drop 3], false).1.getD 0
          []).getLast? = some m ∧
      j < ((makeAttendees 3 1 0).take 3 :: [(makeAttendees 3 1 0).drop 3], false).1.length ∧
      (((makeAttendees 3 1 0).take 3 :: [(makeAttendees 3 1 0).drop 3], false).1.getD j
          []).length < ([2, 2] : List Nat).getD j 0 ∧
      (∀ k, k < j → ([2, 2] : List Nat).getD k 0
        ≤ (((makeAttendees 3 1 0).take 3 :: [(makeAttendees 3 1 0).drop 3], false).1.getD k
            []).length) ∧
      (rebalanceStep [2, 2]
          ((makeAttendees 3 1 0).take 3 :: [(makeAttendees 3 1 0).drop 3], false) 0).1.getD 0 []
        = (((makeAttendees 3 1 0).take 3 :: [(makeAttendees 3 1 0).drop 3], false).1.getD 0
            []).dropLast ∧
      (rebalanceStep [2, 2]
          ((makeAttendees 3 1 0).take 3 :: [(makeAttendees 3 1 0).drop 3], false) 0).1.getD j []
        = ((makeAttendees 3 1 0).take 3 :: [(makeAttendees 3 1 0).drop 3], false).1.getD j []
            ++ [m] ∧
      (∀ k, k ≠ 0 → k ≠ j →
        (rebalanceStep [2, 2]
            ((makeAttendees 3 1 0).take 3 :: [(makeAttendees 3 1 0).drop 3], false) 0).1.getD k []
          = ((makeAttendees 3 1 0).take 3 :: [(makeAttendees 3 1 0).drop 3], false).1.getD k
              []) ∧
      (rebalanceStep [2, 2]
          ((makeAttendees 3 1 0).take 3 :: [(makeAttendees 3 1 0).drop 3], false) 0).1.length
        = ((makeAttendees 3 1 0).take 3 :: [(makeAttendees 3 1 0).drop 3], false).1.length ∧
      ((rebalanceStep [2, 2]
          ((makeAttendees 3 1 0).take 3 :: [(makeAttendees 3 1 0).drop 3], false) 0).1.getD j
            []).length ≤ ([2, 2] : List Nat).getD j 0 ∧
      (rebalanceStep [2, 2]
          ((makeAttendees 3 1 0).take 3 :: [(makeAttendees 3 1 0).drop 3], false) 0).2 = true :=
  rebalance_move [2, 2] ((makeAttendees 3 1 0).take 3 :: [(makeAttendees 3 1 0).drop 3], false) 0
    (by decide)

/-- Claim C27. For every roster, every `N ≥ 1` and every options argument, no team returned
by `generateTeams` has more than `ceil(|R| / N)` members. -/
theorem generateTeams_max_size (fuel : Nat) (nonLeaders : List Attendee) (N : Nat)
    (opts : OptsArg) (hN : 1 ≤ N) (hfuel : nonLeaders.length < fuel) :
    ∃ teams, generateTeams fuel nonLeaders (N : ℚ) opts = some teams ∧
      ∀ tm ∈ teams, tm.length ≤ (nonLeaders.length + N - 1) / N := by
  have hpos : 0 < normalizeCount (N : ℚ) := by rw [normalizeCount_natCast]; omega
  obtain ⟨teams, h1, h2, h3, h4⟩ := generateTeams_spec fuel nonLeaders (N : ℚ) opts hpos hfuel
  rw [normalizeCount_natCast] at h2 h4
  rw [targetSizes_eq] at h4
  have htot : teams.flatten.length = nonLeaders.length := h3.length_eq
  have hle := stable_le_target N _ teams h2 h4
    (by rw [htot]; exact le_mul_target N nonLeaders.length (by omega))
  refine ⟨teams, h1, ?_⟩
  intro tm htm
  rw [ceil_div_eq N nonLeaders.length (by omega)]
  exact hle tm htm

/-- Witness of C27: the test roster in four teams, at most four members each. -/
theorem generateTeams_max_size_witness :
    1 ≤ 4 ∧ (makeAttendees 6 8 1).length < 16 ∧
      ∃ teams, generateTeams 16 (makeAttendees 6 8 1) ((4 : Nat) : ℚ) OptsArg.omitted
          = some teams ∧
        ∀ tm ∈ teams, tm.length ≤ ((makeAttendees 6 8 1).length + 4 - 1) / 4 :=
  ⟨by decide, by decide,
    generateTeams_max_size 16 (makeAttendees 6 8 1) 4 OptsArg.omitted (by decide) (by decide)⟩

/-- Claim C28. In strict mode, for every roster and `N ≥ 1`, every returned team has at
least `floor(c_Male / N) + floor(c_Female / N) + floor(c_Other / N)` members and at most
three more, so any two returned teams differ in size by at most 3. -/
theorem strict_size_spread (fuel : Nat) (nonLeaders : List Attendee) (N : Nat) (hN : 1 ≤ N)
    (hfuel : nonLeaders.length < fuel) :
    ∃ teams, generateTeams fuel nonLeaders (N : ℚ) (OptsArg.obj (some "strict")) = some teams ∧
      (∀ tm ∈ teams,
        (genderBucket nonLeaders Bucket.Male).length / N
          + (genderBucket nonLeaders Bucket.Female).length / N
          + (genderBucket nonLeaders Bucket.Other).length / N ≤ tm.length) ∧
      (∀ tm ∈ teams,
        tm.length ≤ (genderBucket nonLeaders Bucket.Male).length / N
          + (genderBucket nonLeaders Bucket.Female).length / N
          + (genderBucket nonLeaders Bucket.Other).length / N + 3) ∧
      (∀ a ∈ teams, ∀ b ∈ teams, a.length ≤ b.length + 3) := by
  have hNpos : 0 < N := by omega
  have hs : isStrict (OptsArg.obj (some "strict")) = true := by decide
  have hne : N ≠ 0 := by omega
  have hsum : (genderBucket nonLeaders Bucket.Male).length
      + (genderBucket nonLeaders Bucket.Female).length
      + (genderBucket nonLeaders Bucket.Other).length = nonLeaders.length := by
    have h := (genderBucket_perm nonLeaders).length_eq
    simp only [List.length_append] at h
    omega
  have hperm : (((strictAssign N (orderedByGender nonLeaders) (List.replicate N [])).map
      sortByAge).flatten).Perm nonLeaders :=
    ((map_sortByAge_flatten_perm _).trans (strictAssign_perm N _ hNpos).2).trans
      (orderedByGender_perm nonLeaders)
  have hlen : ((strictAssign N (orderedByGender nonLeaders) (List.replicate N [])).map
      sortByAge).length = N := by
    rw [List.length_map]
    exact (strictAssign_perm N _ hNpos).1
  obtain ⟨r, r1, r2, r3, r4⟩ := rebalance_spec fuel N _ hlen
    (by rw [hperm.length_eq]; exact hfuel)
  rw [hperm.length_eq, targetSizes_eq] at r4
  have hgen : generateTeams fuel nonLeaders (N : ℚ) (OptsArg.obj (some "strict")) = some r := by
    simp only [generateTeams, normalizeCount_natCast, hne, if_false, assignTeams, hs, if_true,
      Option.some_bind]
    exact r1
  -- the upper bound
  have hupper : ∀ tm ∈ r, tm.length
      ≤ (if nonLeaders.length % N > 0 then nonLeaders.length / N + 1
          else nonLeaders.length / N) :=
    stable_le_target N _ r r2 r4
      (by rw [(r3.trans hperm).length_eq]; exact le_mul_target N _ hNpos)
  have hdiv3 := div_add_three_lt N (genderBucket nonLeaders Bucket.Male).length
    (genderBucket nonLeaders Bucket.Female).length
    (genderBucket nonLeaders Bucket.Other).length hNpos
  have hdiv0 := div_add_three_le N (genderBucket nonLeaders Bucket.Male).length
    (genderBucket nonLeaders Bucket.Female).length
    (genderBucket nonLeaders Bucket.Other).length
  rw [hsum] at hdiv3 hdiv0
  -- the lower bound
  have hinit : ∀ k, k < ((strictAssign N (orderedByGender nonLeaders)
      (List.replicate N [])).map sortByAge).length →
      (genderBucket nonLeaders Bucket.Male).length / N
        + (genderBucket nonLeaders Bucket.Female).length / N
        + (genderBucket nonLeaders Bucket.Other).length / N
        ≤ (((strictAssign N (orderedByGender nonLeaders) (List.replicate N [])).map
            sortByAge).getD k []).length := by
    intro k hk
    rw [hlen] at hk
    have key : ∀ g' : Bucket,
        (genderBucket nonLeaders g').length / N
          ≤ (quotaSlice (orderedBucket nonLeaders g')
              (quotasFor N (orderedBucket nonLeaders g').length) k).length := by
      intro g'
      rw [quotaSlice_length _ _ _ hNpos hk, quotasFor_getD _ _ _ hNpos hk, orderedBucket_length]
      omega
    have k1 := key Bucket.Male
    have k2 := key Bucket.Female
    have k3 := key Bucket.Other
    rw [getD_map_sortByAge, (sortByAge_perm _).length_eq, strictAssign_eq _ _ hNpos]
    simp only [List.getD_eq_getElem?_getD, List.getElem?_map, List.getElem?_range hk,
      Option.map_some', Option.getD_some, List.length_append, orderedByGender]
    omega
  have htg : ∀ k, (genderBucket nonLeaders Bucket.Male).length / N
        + (genderBucket nonLeaders Bucket.Female).length / N
        + (genderBucket nonLeaders Bucket.Other).length / N
        ≤ (targetSizes N (totalSize ((strictAssign N (orderedByGender nonLeaders)
            (List.replicate N [])).map sortByAge))).getD k 0
      ∨ ((strictAssign N (orderedByGender nonLeaders) (List.replicate N [])).map
          sortByAge).length ≤ k := by
    intro k
    by_cases hk : k < N
    · left
      rw [totalSize_eq, hperm.length_eq, targetSizes_eq, getD_replicate_lt N _ k hk]
      split <;> omega
    · right
      rw [hlen]
      omega
  have hlower := rebalanceLoop_lower _ N _ fuel _ r
    (by rw [hlen, targetSizes_eq, List.length_replicate]) htg hinit r1
  have hlow' : ∀ tm ∈ r, (genderBucket nonLeaders Bucket.Male).length / N
        + (genderBucket nonLeaders Bucket.Female).length / N
        + (genderBucket nonLeaders Bucket.Other).length / N ≤ tm.length := by
    intro tm htm
    obtain ⟨k, hk, e⟩ := getD_of_mem r tm htm
    have := hlower k hk
    rw [e] at this
    exact this
  have hup' : ∀ tm ∈ r, tm.length ≤ (genderBucket nonLeaders Bucket.Male).length / N
        + (genderBucket nonLeaders Bucket.Female).length / N
        + (genderBucket nonLeaders Bucket.Other).length / N + 3 := by
    intro tm htm
    have := hupper tm htm
    split at this <;> omega
  refine ⟨r, hgen, hlow', hup', ?_⟩
  intro a ha b hb
  have := hup' a ha
  have := hlow' b hb
  omega

/-- Witness of C28: three Male, three Female and three Other members in four teams. -/
theorem strict_size_spread_witness :
    1 ≤ 4 ∧ (makeAttendees 3 3 3).length < 10 ∧
      ∃ teams, generateTeams 10 (makeAttendees 3 3 3) ((4 : Nat) : ℚ)
          (OptsArg.obj (some "strict")) = some teams ∧
        (∀ tm ∈ teams,
          (genderBucket (makeAttendees 3 3 3) Bucket.Male).length / 4
            + (genderBucket (makeAttendees 3 3 3) Bucket.Female).length / 4
            + (genderBucket (makeAttendees 3 3 3) Bucket.Other).length / 4 ≤ tm.length) ∧
        (∀ tm ∈ teams,
          tm.length ≤ (genderBucket (makeAttendees 3 3 3) Bucket.Male).length / 4
            + (genderBucket (makeAttendees 3 3 3) Bucket.Female).length / 4
            + (genderBucket (makeAttendees 3 3 3) Bucket.Other).length / 4 + 3) ∧
        (∀ a ∈ teams, ∀ b ∈ teams, a.length ≤ b.length + 3) :=
  ⟨by decide, by decide,
    strict_size_spread 10 (makeAttendees 3 3 3) 4 (by decide) (by decide)⟩

/-- Claim C29. In loose mode, for every roster, `N ≥ 1` and fuel above the roster size, the
rebalance pass moves nobody, `generateTeams` returns the assigned teams sorted by age, team
`i` has `floor(|R| / N) + 1` members for `i < |R| mod N` and `floor(|R| / N)` otherwise,
and any two sizes differ by at most 1. -/
theorem loose_sizes (fuel : Nat) (nonLeaders : List Attendee) (N : Nat) (opts : OptsArg)
    (hN : 1 ≤ N) (hloose : isStrict opts = false) (hfuel : nonLeaders.length < fuel) :
    ∃ assigned, assignTeams fuel nonLeaders N opts = some assigned ∧
      rebalancePass N (targetSizes N (totalSize (assigned.map sortByAge)))
        (assigned.map sortByAge) = (assigned.map sortByAge, false) ∧
      generateTeams fuel nonLeaders (N : ℚ) opts = some (assigned.map sortByAge) ∧
      sizes (assigned.map sortByAge) = (List.range N).map (fun i =>
        nonLeaders.length / N + if i < nonLeaders.length % N then 1 else 0) ∧
      (∀ a ∈ sizes (assigned.map sortByAge), ∀ b ∈ sizes (assigned.map sortByAge),
        a ≤ b + 1) := by
  obtain ⟨p1, p2⟩ := loose_pipeline fuel nonLeaders N opts hN hloose hfuel
  have hml : (mergedByRounds (orderedByGender nonLeaders) nonLeaders.length).length
      = nonLeaders.length := (mergeLoop_orderedByGender fuel nonLeaders hfuel).2.length_eq
  have hsz := pickTeams_sizes N
    (mergedByRounds (orderedByGender nonLeaders) nonLeaders.length) (by omega)
  rw [hml] at hsz
  refine ⟨_, p1, ?_, p2, hsz, ?_⟩
  · exact rebalancePass_noop N _ _ (pickTeams_le_target N _ (by omega))
  · rw [hsz]
    intro a ha b hb
    obtain ⟨i, _, rfl⟩ := List.mem_map.mp ha
    obtain ⟨j, _, rfl⟩ := List.mem_map.mp hb
    split <;> split <;> omega

/-- Witness of C29: the test roster in four teams with a `parity` other than `strict`. -/
theorem loose_sizes_witness :
    1 ≤ 4 ∧ isStrict (OptsArg.obj (some "loose")) = false ∧ (makeAttendees 6 8 1).length < 16 ∧
      ∃ assigned,
        assignTeams 16 (makeAttendees 6 8 1) 4 (OptsArg.obj (some "loose")) = some assigned ∧
        rebalancePass 4 (targetSizes 4 (totalSize (assigned.map sortByAge)))
          (assigned.map sortByAge) = (assigned.map sortByAge, false) ∧
        generateTeams 16 (makeAttendees 6 8 1) ((4 : Nat) : ℚ) (OptsArg.obj (some "loose"))
          = some (assigned.map sortByAge) ∧
        sizes (assigned.map sortByAge) = (List.range 4).map (fun i =>
          (makeAttendees 6 8 1).length / 4
            + if i < (makeAttendees 6 8 1).length % 4 then 1 else 0) ∧
        (∀ a ∈ sizes (assigned.map sortByAge), ∀ b ∈ sizes (assigned.map sortByAge),
          a ≤ b + 1) :=
  ⟨by decide, by decide, by decide,
    loose_sizes 16 (makeAttendees 6 8 1) 4 (OptsArg.obj (some "loose")) (by decide) (by decide)
      (by decide)⟩

/-! ## The histogram object against a histogram of plain counts -/

theorem bumpGender_liftCounts (acc : List (String × Nat)) (key : String)
    (h : inheritedText key = none) :
    bumpGender (liftCounts acc) key = liftCounts (bumpCount acc key) := by
  induction acc with
  | nil => simp [liftCounts, bumpGender, bumpCount, h]
  | cons p rest ih =>
    obtain ⟨k, c⟩ := p
    unfold liftCounts at ih ⊢
    by_cases hk : k = key
    · simp [bumpGender, bumpCount, hk, bumpVal]
    · simp [bumpGender, bumpCount, hk, ih]

theorem histogram_liftCounts (members : Team) (acc : List (String × Nat))
    (h : ∀ a ∈ members, inheritedText (genderKey a) = none) :
    members.foldl (fun acc a => bumpGender acc (genderKey a)) (liftCounts acc)
      = liftCounts (members.foldl (fun acc a => bumpCount acc (genderKey a)) acc) := by
  induction members generalizing acc with
  | nil => rfl
  | cons a rest ih =>
    rw [List.foldl_cons, List.foldl_cons,
      bumpGender_liftCounts acc _ (h a (List.mem_cons_self _ _))]
    exact ih _ (fun b hb => h b (List.mem_cons_of_mem _ hb))

theorem histGet_liftCounts (hist : List (String × Nat)) (L : String) :
    histGet (liftCounts hist) L = (countGet hist L).map HistVal.count := by
  induction hist with
  | nil => rfl
  | cons p rest ih =>
    obtain ⟨k, c⟩ := p
    unfold liftCounts at ih ⊢
    by_cases hk : k = L
    · simp [histGet, countGet, hk]
    · simp [histGet, countGet, hk, ih]

/-- Claim C15 fails as stated: for a team of one member whose gender is `constructor` the
histogram holds a string under that label, not the count 1, and for a team of one member
whose gender is `__proto__` the histogram is empty although `count` is 1. -/
theorem statsForTeams_genders_counterexample :
    labelCount "constructor" [{ id := "a", gender := some "constructor", age := none }] = 1 ∧
      (statsForTeams [[{ id := "a", gender := some "constructor", age := none }]]).map
          (fun s => histGet s.genders "constructor")
        = [some (HistVal.text "function Object() \x7b [native code] \x7d1")] ∧
      (statsForTeams [[{ id := "b", gender := some "__proto__", age := none }]]).map
          (fun s => (s.count, s.genders)) = [(1, [])] := by
  decide

/-- Claim C15 as amended. For teams in which no member's gender, read as a property key,
names a property inherited from `Object.prototype`, and every label `L`: the `genders`
histogram holds under `L` the number of members whose gender key is `L` (the raw string,
not normalised; a missing gender reads as `undefined`), a label of no member is absent, no
key occurs twice, every value is a count and the counts add up to `count`. -/
theorem statsForTeams_genders_own (teams : List Team) (L : String)
    (hown : ∀ members ∈ teams, ∀ a ∈ members, inheritedText (genderKey a) = none) :
    (statsForTeams teams).map (fun s => histGet s.genders L)
        = teams.map (fun members =>
            if labelCount L members = 0 then none
            else some (HistVal.count (labelCount L members))) ∧
      (∀ s ∈ statsForTeams teams, ∃ counts : List Nat,
        s.genders.map Prod.snd = counts.map HistVal.count ∧ counts.sum = s.count ∧
        (s.genders.map Prod.fst).Nodup) ∧
      (∀ members : Team, (∀ a ∈ members, a.gender.isSome) →
        labelCount L members
          = (members.filter (fun a => decide (a.gender = some L))).length) := by
  have hfold : ∀ members ∈ teams,
      members.foldl (fun acc a => bumpGender acc (genderKey a)) []
        = liftCounts (members.foldl (fun acc a => bumpCount acc (genderKey a)) []) :=
    fun members hm => histogram_liftCounts members [] (hown members hm)
  refine ⟨?_, ?_, ?_⟩
  · simp only [statsForTeams, List.map_map]
    apply List.map_congr_left
    intro members hm
    simp only [Function.comp_def]
    rw [hfold members hm, histGet_liftCounts, countHistogram_spec]
    split <;> rfl
  · intro s hs
    unfold statsForTeams at hs
    obtain ⟨members, hm, rfl⟩ := List.mem_map.mp hs
    obtain ⟨_, _, h3, h4⟩ := countHistogram_fold members []
      (by intro L; simp [countGet]) (by simp)
    refine ⟨(members.foldl (fun acc a => bumpCount acc (genderKey a)) []).map Prod.snd,
      ?_, by simpa using h3, ?_⟩
    · simp only [hfold members hm, liftCounts, List.map_map, Function.comp_def]
    · simp only [hfold members hm, liftCounts, List.map_map, Function.comp_def]
      exact h4
  · intro members hall
    unfold labelCount
    congr 1
    apply List.filter_congr
    intro a ha
    have hs := hall a ha
    cases hg : a.gender with
    | none => rw [hg] at hs; simp at hs
    | some s => simp [genderKey, hg]

/-- Witness of the amended C15: a team of the test roster under the label `Female`. -/
theorem statsForTeams_genders_own_witness :
    (∀ members ∈ [makeAttendees 1 2 0], ∀ a ∈ members, inheritedText (genderKey a) = none) ∧
      (statsForTeams [makeAttendees 1 2 0]).map (fun s => histGet s.genders "Female")
        = [makeAttendees 1 2 0].map (fun members =>
            if labelCount "Female" members = 0 then none
            else some (HistVal.count (labelCount "Female" members))) :=
  ⟨by decide, (statsForTeams_genders_own [makeAttendees 1 2 0] "Female" (by decide)).1⟩

/-! ## The call for any number as `teamCount` -/

theorem normalizeCount_cast (q : ℚ) : ((normalizeCount q : ℕ) : ℤ) = max 0 ⌊q⌋ := by
  have hfloor : Rat.floor q = ⌊q⌋ := rfl
  unfold normalizeCount
  rw [hfloor]
  exact Int.toNat_of_nonneg (le_max_left _ _)

theorem normalizeCount_le_max (q : ℚ) (h : ⌊q⌋ < 4294967296) :
    ¬ maxArrayLength < normalizeCount q := by
  have hc := normalizeCount_cast q
  have hm : max 0 ⌊q⌋ < 4294967296 := max_lt (by norm_num) h
  unfold maxArrayLength
  omega

theorem generateTeamsCall_finite (fuel : Nat) (nonLeaders : List Attendee) (q : ℚ)
    (opts : OptsArg) (teams : List Team) (hb : ¬ maxArrayLength < normalizeCount q)
    (h : generateTeams fuel nonLeaders q opts = some teams) :
    generateTeamsCall fuel nonLeaders (JSNumber.finite q) opts = Outcome.returned teams := by
  simp only [generateTeamsCall, if_neg hb, h]

theorem generateTeamsCall_too_many (fuel : Nat) (nonLeaders : List Attendee) (N : Nat)
    (opts : OptsArg) (h : maxArrayLength < N) :
    generateTeamsCall fuel nonLeaders (JSNumber.finite (N : ℚ)) opts = Outcome.rangeError := by
  simp only [generateTeamsCall, normalizeCount_natCast, if_pos h]

/-- Teams returned by the call for a finite `teamCount` are the teams of the function
`generateTeams`, so what is established of the latter holds of every returned result. -/
theorem generateTeamsCall_returned (fuel : Nat) (nonLeaders : List Attendee) (q : ℚ)
    (opts : OptsArg) (teams : List Team)
    (h : generateTeamsCall fuel nonLeaders (JSNumber.finite q) opts = Outcome.returned teams) :
    generateTeams fuel nonLeaders q opts = some teams ∧ normalizeCount q ≤ maxArrayLength := by
  unfold generateTeamsCall at h
  simp only [] at h
  by_cases hb : maxArrayLength < normalizeCount q
  · rw [if_pos hb] at h
    exact Outcome.noConfusion h
  · rw [if_neg hb] at h
    cases hg : generateTeams fuel nonLeaders q opts with
    | none =>
      rw [hg] at h
      exact Outcome.noConfusion h
    | some t =>
      rw [hg] at h
      exact ⟨by rw [Outcome.returned.inj h], by omega⟩

/-- Claim C6 fails as stated: for `teamCount = 2^32` the call raises a `RangeError` and
returns no teams, for `Infinity` likewise, and for `NaN` with one participant it raises a
`TypeError`. -/
theorem teamCount_counterexample :
    generateTeamsCall 1 [] (JSNumber.finite ((4294967296 : ℕ) : ℚ)) OptsArg.omitted
        = Outcome.rangeError ∧
      generateTeamsCall 1 [] JSNumber.posInf OptsArg.omitted = Outcome.rangeError ∧
      generateTeamsCall 2 (makeAttendees 1 0 0) JSNumber.nan OptsArg.omitted
        = Outcome.typeError :=
  ⟨generateTeamsCall_too_many 1 [] 4294967296 OptsArg.omitted (by decide), rfl, by decide⟩

/-- Claim C6 as amended. For every roster and every finite `teamCount` with
`floor(teamCount) < 2^32`, the call returns exactly `max(0, floor(teamCount))` teams; a
`teamCount` of zero or below gives the empty team list whatever the roster and the fuel,
so no loop and no division is entered; a non-negative `teamCount` gives the result of its
truncation; `-Infinity` gives the empty team list as well. -/
theorem generateTeamsCall_teamCount (fuel : Nat) (nonLeaders : List Attendee) (teamCount : ℚ)
    (opts : OptsArg) (hfuel : nonLeaders.length < fuel) (hbound : ⌊teamCount⌋ < 4294967296) :
    (∃ teams, generateTeamsCall fuel nonLeaders (JSNumber.finite teamCount) opts
          = Outcome.returned teams ∧
        (teams.length : ℤ) = max 0 ⌊teamCount⌋) ∧
      (teamCount ≤ 0 →
        ∀ f, generateTeamsCall f nonLeaders (JSNumber.finite teamCount) opts
          = Outcome.returned []) ∧
      (0 ≤ teamCount →
        generateTeamsCall fuel nonLeaders (JSNumber.finite teamCount) opts
          = generateTeamsCall fuel nonLeaders (JSNumber.finite ((⌊teamCount⌋₊ : ℕ) : ℚ))
              opts) ∧
      (∀ f, generateTeamsCall f nonLeaders JSNumber.negInf opts = Outcome.returned []) := by
  have hb := normalizeCount_le_max teamCount hbound
  obtain ⟨⟨teams, h1, h2⟩, h3, h4⟩ := generateTeams_count_core fuel nonLeaders teamCount opts
    hfuel
  refine ⟨⟨teams, generateTeamsCall_finite _ _ _ _ _ hb h1, h2⟩, ?_, ?_, fun _ => rfl⟩
  · intro hle f
    exact generateTeamsCall_finite _ _ _ _ _ hb (h3 hle f)
  · intro hnn
    have hn : normalizeCount ((⌊teamCount⌋₊ : ℕ) : ℚ) = normalizeCount teamCount := by
      have hfloor : Rat.floor teamCount = ⌊teamCount⌋ := rfl
      rw [normalizeCount_natCast]
      unfold normalizeCount
      rw [hfloor, max_eq_right (Int.floor_nonneg.2 hnn), Int.floor_toNat]
    simp only [generateTeamsCall, hn, h4 hnn]

/-- Witness of the amended C6: the test roster with `teamCount = 7/2` gives three teams. -/
theorem generateTeamsCall_teamCount_witness :
    (makeAttendees 6 8 1).length < 16 ∧ ⌊(7 / 2 : ℚ)⌋ < 4294967296 ∧
      ∃ teams, generateTeamsCall 16 (makeAttendees 6 8 1) (JSNumber.finite (7 / 2))
          OptsArg.omitted = Outcome.returned teams ∧
        (teams.length : ℤ) = max 0 ⌊(7 / 2 : ℚ)⌋ :=
  ⟨by decide, by norm_num,
    (generateTeamsCall_teamCount 16 (makeAttendees 6 8 1) (7 / 2) OptsArg.omitted (by decide)
      (by norm_num)).1⟩

/-- Claim C11 fails as stated: one participant and `N = 2^32` teams, `N` above the roster
size: the call raises a `RangeError` and returns no teams. -/
theorem more_teams_counterexample :
    (makeAttendees 1 0 0).length < 4294967296 ∧
      generateTeamsCall 2 (makeAttendees 1 0 0) (JSNumber.finite ((4294967296 : ℕ) : ℚ))
        OptsArg.omitted = Outcome.rangeError ∧
      ¬ ∃ teams, generateTeamsCall 2 (makeAttendees 1 0 0)
          (JSNumber.finite ((4294967296 : ℕ) : ℚ)) OptsArg.omitted = Outcome.returned teams := by
  have h := generateTeamsCall_too_many 2 (makeAttendees 1 0 0) 4294967296 OptsArg.omitted
    (by decide)
  refine ⟨by decide, h, ?_⟩
  rintro ⟨teams, ht⟩
  rw [h] at ht
  exact Outcome.noConfusion ht

/-- Claim C11 as amended. For every roster, every team count `N` with `|R| < N < 2^32` and
every options argument, the call returns `N` teams of at most one member each: exactly
`|R|` of them hold one member and the other `N - |R|` are empty. -/
theorem generateTeamsCall_more_teams (fuel : Nat) (nonLeaders : List Attendee) (N : Nat)
    (opts : OptsArg) (hN : nonLeaders.length < N) (hbound : N < 4294967296)
    (hfuel : nonLeaders.length < fuel) :
    ∃ teams, generateTeamsCall fuel nonLeaders (JSNumber.finite (N : ℚ)) opts
        = Outcome.returned teams ∧
      teams.length = N ∧ (∀ tm ∈ teams, tm.length ≤ 1) ∧
      (teams.filter (fun tm => decide (tm.length = 1))).length = nonLeaders.length ∧
      (teams.filter (fun tm => decide (tm.length = 0))).length = N - nonLeaders.length := by
  obtain ⟨teams, h1, h2⟩ := generateTeams_sparse_core fuel nonLeaders N opts hN hfuel
  have hb : ¬ maxArrayLength < normalizeCount (N : ℚ) := by
    rw [normalizeCount_natCast]
    unfold maxArrayLength
    omega
  exact ⟨teams, generateTeamsCall_finite _ _ _ _ _ hb h1, h2⟩

/-- Witness of the amended C11: one participant and three teams. -/
theorem generateTeamsCall_more_teams_witness :
    (makeAttendees 1 0 0).length < 3 ∧ 3 < 4294967296 ∧ (makeAttendees 1 0 0).length < 2 ∧
      ∃ teams, generateTeamsCall 2 (makeAttendees 1 0 0) (JSNumber.finite ((3 : Nat) : ℚ))
          OptsArg.falsy = Outcome.returned teams ∧
        teams.length = 3 ∧ (∀ tm ∈ teams, tm.length ≤ 1) ∧
        (teams.filter (fun tm => decide (tm.length = 1))).length = (makeAttendees 1 0 0).length ∧
        (teams.filter (fun tm => decide (tm.length = 0))).length
          = 3 - (makeAttendees 1 0 0).length :=
  ⟨by decide, by decide, by decide,
    generateTeamsCall_more_teams 2 (makeAttendees 1 0 0) 3 OptsArg.falsy (by decide) (by decide)
      (by decide)⟩

/-- Claim C24 fails as stated: for the test roster and `N = 2^32` no amount of fuel makes
the call return teams; it raises a `RangeError` before any loop. -/
theorem total_counterexample :
    ¬ ∃ fuel teams, generateTeamsCall fuel (makeAttendees 6 8 1)
        (JSNumber.finite ((4294967296 : ℕ) : ℚ)) OptsArg.omitted = Outcome.returned teams := by
  rintro ⟨fuel, teams, ht⟩
  rw [generateTeamsCall_too_many fuel (makeAttendees 6 8 1) 4294967296 OptsArg.omitted
    (by decide)] at ht
  exact Outcome.noConfusion ht

/-- Claim C24 as amended. With fuel above the roster size no call runs out of fuel: the
loops finish within `|R| + 1` passes for every roster, every number as `teamCount` and
every options argument.  For a finite `teamCount` with `floor(teamCount) < 2^32` (every
`N` with `1 ≤ N < 2^32` in particular) the call returns teams, more fuel returns the same
teams, and for `N ≥ 1` the returned teams are left unchanged by a further rebalance pass
(the loop stopped because no move was possible). -/
theorem generateTeamsCall_total (fuel : Nat) (nonLeaders : List Attendee) (teamCount : JSNumber)
    (opts : OptsArg) (hfuel : nonLeaders.length < fuel) :
    generateTeamsCall fuel nonLeaders teamCount opts ≠ Outcome.outOfFuel ∧
      ∀ q, teamCount = JSNumber.finite q → ⌊q⌋ < 4294967296 →
        ∃ teams, generateTeamsCall fuel nonLeaders teamCount opts = Outcome.returned teams ∧
          (∀ fuel', fuel ≤ fuel' →
            generateTeamsCall fuel' nonLeaders teamCount opts = Outcome.returned teams) ∧
          (0 < normalizeCount q →
            rebalancePass (normalizeCount q) (targetSizes (normalizeCount q) nonLeaders.length)
              teams = (teams, false)) := by
  constructor
  · cases teamCount with
    | negInf => simp [generateTeamsCall]
    | posInf => simp [generateTeamsCall]
    | nan =>
      unfold generateTeamsCall
      simp only []
      split <;> simp
    | finite q =>
      obtain ⟨teams, h1, _⟩ := generateTeams_loops_core fuel nonLeaders q opts hfuel
      unfold generateTeamsCall
      simp only [h1]
      split <;> simp
  · intro q hq hbound
    subst hq
    have hb := normalizeCount_le_max q hbound
    obtain ⟨teams, h1, h2, h3⟩ := generateTeams_loops_core fuel nonLeaders q opts hfuel
    exact ⟨teams, generateTeamsCall_finite _ _ _ _ _ hb h1,
      fun fuel' hle => generateTeamsCall_finite _ _ _ _ _ hb (h2 fuel' hle), h3⟩

/-- Witness of the amended C24: a roster with attendees that lack a gender or an age. -/
theorem generateTeamsCall_total_witness :
    ([{ id := "x", gender := none, age := none },
        { id := "y", gender := some "male", age := none },
        { id := "z", gender := some "Male", age := some 12 }] : List Attendee).length < 4 ∧
      generateTeamsCall 4
          [{ id := "x", gender := none, age := none },
            { id := "y", gender := some "male", age := none },
            { id := "z", gender := some "Male", age := some 12 }]
          (JSNumber.finite 2) OptsArg.omitted ≠ Outcome.outOfFuel ∧
      ∃ teams,
        generateTeamsCall 4
            [{ id := "x", gender := none, age := none },
              { id := "y", gender := some "male", age := none },
              { id := "z", gender := some "Male", age := some 12 }]
            (JSNumber.finite 2) OptsArg.omitted = Outcome.returned teams :=
  ⟨by decide,
    (generateTeamsCall_total 4
      [{ id := "x", gender := none, age := none },
        { id := "y", gender := some "male", age := none },
        { id := "z", gender := some "Male", age := some 12 }]
      (JSNumber.finite 2) OptsArg.omitted (by decide)).1,
    Exists.imp (fun _ h => h.1)
      ((generateTeamsCall_total 4
        [{ id := "x", gender := none, age := none },
          { id := "y", gender := some "male", age := none },
          { id := "z", gender := some "Male", age := some 12 }]
        (JSNumber.finite 2) OptsArg.omitted (by decide)).2 2 rfl (by norm_num))⟩

end TeamGen

